import Mathlib

/-!
Verification development for the HE2 toolbox template engine
(`he2_toolbox_blender`): a shallow embedding of the schema resolver,
parameter marshaller, enum registrar and parameter-transfer matcher from
`modules/hson_template.py`, `modules/hson_module.py` and
`modules/blendhog_addon.py`, together with theorems about them.

Python values are embedded as the inductive `Value`; Python dicts as
insertion-ordered association lists (`pyGet` / `pyDictSet` mirror
`dict.get` and `d[k] = v`).  Python floats are embedded as rationals:
no arithmetic is ever performed on them by the code under study, they
are only stored and compared, so only (in)equality matters.
-/

/-- Embedding of the Python/JSON values the template engine manipulates.
`vFloat` carries a rational; `vNull` is Python `None`. -/
inductive Value where
  | vInt : Int → Value
  | vFloat : Rat → Value
  | vStr : String → Value
  | vBool : Bool → Value
  | vNull : Value
  | vList : List Value → Value
  | vDict : List (String × Value) → Value

instance : Inhabited Value := ⟨Value.vNull⟩

/-- `d.get(k)` on an insertion-ordered dict embedded as an association list. -/
def pyGet {α : Type} (d : List (String × α)) (k : String) : Option α :=
  (d.find? (fun kv => kv.1 == k)).map Prod.snd

/-- `d[k] = v`: replace the value at the first occurrence of `k`, keeping its
position (as CPython dicts do), else append the new binding at the end. -/
def pyDictSet {α : Type} : List (String × α) → String → α → List (String × α)
  | [], k, v => [(k, v)]
  | (k', v') :: rest, k, v =>
    if k' == k then (k, v) :: rest else (k', v') :: pyDictSet rest k v

/-- `k in d` for a dict. -/
def pyHasKey {α : Type} (d : List (String × α)) (k : String) : Bool :=
  (pyGet d k).isSome

/-- ASCII lowercasing of one character.  Python `str.lower()` also folds
non-ASCII letters; the templates and parameter names under study are
ASCII, which this model assumes. -/
def pyCharLower (c : Char) : Char :=
  if 'A' ≤ c ∧ c ≤ 'Z' then Char.ofNat (c.toNat + 32) else c

/-- Python `s.lower()` (ASCII). -/
def pyLower (s : String) : String := String.mk (s.data.map pyCharLower)

/-- Python `s.strip()`: remove leading and trailing whitespace. -/
def pyStrip (s : String) : String :=
  String.mk (((s.data.dropWhile Char.isWhitespace).reverse.dropWhile
    Char.isWhitespace).reverse)

def hasSubAux (c0 : Char) (cs : List Char) : List Char → Bool
  | [] => false
  | c :: rest => (c0 :: cs).isPrefixOf (c :: rest) || hasSubAux c0 cs rest

/-- Python `sub in s` substring containment. -/
def pyContains (s sub : String) : Bool :=
  match sub.data with
  | [] => true
  | c0 :: cs => hasSubAux c0 cs s.data

def splitOnSubAux (c0 : Char) (cs : List Char) : List Char → List Char → List (List Char)
  | [], acc => [acc.reverse]
  | c :: rest, acc =>
    if (c0 :: cs).isPrefixOf (c :: rest) then
      acc.reverse :: splitOnSubAux c0 cs ((c :: rest).drop (cs.length + 1)) []
    else
      splitOnSubAux c0 cs rest (c :: acc)
termination_by l _ => l.length
decreasing_by
  · simp
    omega
  · simp

/-- Python `s.split(sep)` for a nonempty separator. -/
def pySplitStr (s sep : String) : List String :=
  match sep.data with
  | [] => [s]
  | c0 :: cs => (splitOnSubAux c0 cs s.data []).map String.mk

/-- Python truthiness of a `Value`. -/
def pyTruthy : Value → Bool
  | .vInt n => n != 0
  | .vFloat q => q != 0
  | .vStr s => s != ""
  | .vBool b => b
  | .vNull => false
  | .vList l => !l.isEmpty
  | .vDict d => !d.isEmpty

/-- Python `len` of a sized `Value` (`list`, `str`, `dict`).  `len` of a
number/bool/None raises `TypeError` in Python, aborting the whole template
application; such templates are outside this model and get length 0 here. -/
def vLen : Value → Nat
  | .vList l => l.length
  | .vStr s => s.length
  | .vDict d => d.length
  | _ => 0

/-- Python `str()` of a `Value`.  Strings, ints, bools and `None` are exact;
the float/list/dict renderings abstract CPython's `repr` (the code under
study only ever compares `str()` images of scalar template values). -/
def pyStr : Value → String
  | .vStr s => s
  | .vInt n => toString n
  | .vBool b => if b then "True" else "False"
  | .vNull => "None"
  | .vFloat q => if q.den == 1 then toString q.num ++ ".0" else toString q.num ++ "/" ++ toString q.den
  | .vList _ => "[...]"
  | .vDict _ => "{...}"

/-- A `fields` entry of a struct in the template JSON:
`{name, type, subtype?, array_size?}`. -/
structure FieldDef where
  name : String
  type : String
  subtype : Option String := none
  array_size : Option Nat := none
deriving DecidableEq, Repr, Inhabited

/-- A struct definition: optional parent name plus ordered field list. -/
structure StructDef where
  parent : Option String := none
  fields : List FieldDef := []
deriving DecidableEq, Repr, Inhabited

/-- The `structs` table of a template, in declaration order. -/
abbrev Structs := List (String × StructDef)

/-- Names not yet in the visited set: the termination measure of the
recursion guard in `get_struct_fields`. -/
def unvisitedCount (structs : Structs) (visited : List String) : Nat :=
  ((structs.map Prod.fst).filter (fun k => !(decide (k ∈ visited)))).length

theorem pyGet_mem_keys {α : Type} {d : List (String × α)} {k : String} {v : α}
    (h : pyGet d k = some v) : k ∈ d.map Prod.fst := by
  unfold pyGet at h
  cases hf : d.find? (fun kv => kv.1 == k) with
  | none => rw [hf] at h; simp at h
  | some kv =>
    have hmem := List.mem_of_find?_eq_some hf
    have hp := List.find?_some hf
    have hk : kv.1 = k := by simpa using hp
    exact List.mem_map.mpr ⟨kv, hmem, hk⟩

theorem filter_unvisited_lt {l visited : List String} {name : String}
    (hmem : name ∈ l) (hnv : name ∉ visited) :
    (l.filter (fun k => !(decide (k ∈ name :: visited)))).length <
      (l.filter (fun k => !(decide (k ∈ visited)))).length := by
  induction l with
  | nil => simp at hmem
  | cons a l ih =>
    by_cases hal : a = name
    · subst hal
      have h1 : (!(decide (a ∈ a :: visited))) = false := by simp
      have h2 : (!(decide (a ∈ visited))) = true := by simpa using hnv
      simp only [List.filter_cons, h1, h2, if_true, Bool.false_eq_true, if_false]
      have hsub : (l.filter (fun k => !(decide (k ∈ a :: visited)))).length ≤
          (l.filter (fun k => !(decide (k ∈ visited)))).length := by
        apply List.Sublist.length_le
        apply List.monotone_filter_right
        intro x hx
        simp only [Bool.not_eq_true', decide_eq_false_iff_not, List.mem_cons,
          not_or] at hx ⊢
        exact hx.2
      simpa using Nat.lt_succ_of_le hsub
    · have hname : name ∈ l := by
        rcases List.mem_cons.mp hmem with h | h
        · exact absurd h.symm hal
        · exact h
      by_cases hav : a ∈ visited
      · have h1 : (!(decide (a ∈ name :: visited))) = false := by
          simp [List.mem_cons, hav]
        have h2 : (!(decide (a ∈ visited))) = false := by simpa using hav
        simp only [List.filter_cons, h1, h2, Bool.false_eq_true, if_false]
        exact ih hname
      · have h1 : (!(decide (a ∈ name :: visited))) = true := by
          simp [List.mem_cons, hav, Ne.symm]
          exact fun h => absurd h hal
        have h2 : (!(decide (a ∈ visited))) = true := by simpa using hav
        simp only [List.filter_cons, h1, h2, if_true]
        simpa using Nat.succ_lt_succ (ih hname)

theorem unvisited_decreases {structs : Structs} {visited : List String} {name : String}
    (hmem : name ∈ structs.map Prod.fst) (hnv : name ∉ visited) :
    unvisitedCount structs (name :: visited) < unvisitedCount structs visited :=
  filter_unvisited_lt hmem hnv

/-- `get_struct_fields` from `hson_template.py` (lines 203-216): resolve a
struct's fields, walking the parent chain with a visited-set recursion
guard; an unknown struct contributes `{}` (hence no parent, no fields);
`if parent:` is Python truthiness, so an empty-string parent stops the walk. -/
def get_struct_fields (structs : Structs) (struct_name : String)
    (visited : List String) : List FieldDef :=
  if struct_name ∈ visited then []
  else
    match h : pyGet structs struct_name with
    | none => []
    | some struct_def =>
      (match struct_def.parent with
       | some p =>
         if p = "" then []
         else get_struct_fields structs p (struct_name :: visited)
       | none => []) ++ struct_def.fields
termination_by unvisitedCount structs visited
decreasing_by
  exact unvisited_decreases (pyGet_mem_keys h) (by assumption)

/-- The chain of struct names whose field lists `get_struct_fields`
concatenates, in output order (farthest resolved ancestor first, the
struct itself last); the recursion guard truncates the chain at the
first revisit, so it is the non-cyclic prefix of the parent chain. -/
def ancestorChain (structs : Structs) (struct_name : String)
    (visited : List String) : List String :=
  if struct_name ∈ visited then []
  else
    match h : pyGet structs struct_name with
    | none => []
    | some struct_def =>
      (match struct_def.parent with
       | some p =>
         if p = "" then []
         else ancestorChain structs p (struct_name :: visited)
       | none => []) ++ [struct_name]
termination_by unvisitedCount structs visited
decreasing_by
  exact unvisited_decreases (pyGet_mem_keys h) (by assumption)

/-- The declared field list of a struct name (empty for an unknown name). -/
def fieldsOf (structs : Structs) (n : String) : List FieldDef :=
  match pyGet structs n with
  | some sd => sd.fields
  | none => []

/-- One entry of an enum's `values` table: `{name?, description?, value?}`. -/
structure EnumInfo where
  name : Option String := none
  description : Option String := none
  value : Option Value := none

instance : Inhabited EnumInfo := ⟨{}⟩

/-- An enum definition: `{default_key?, values}` (`values` defaults to `{}`
under `enum_def.get("values", {})`).  A template enum whose whole dict is
empty is falsy in Python and skipped by `if enum_def:`; the record embedding
does not distinguish that degenerate case. -/
structure EnumDef where
  default_key : Option String := none
  values : List (String × EnumInfo) := []

instance : Inhabited EnumDef := ⟨{}⟩

/-- The `enums` table of a template. -/
abbrev Enums := List (String × EnumDef)

/-- Python `v in d` for a dict keyed by strings: only a string equal to some
key is a member. -/
def pyMemDict {α : Type} (d : List (String × α)) (v : Value) : Bool :=
  match v with
  | .vStr s => pyHasKey d s
  | _ => false

/-- The enum-value resolution block of `apply_hson_template_to_object`
(`hson_template.py` lines 304-311): if the value is neither a member key nor
(as a string) a member key, try to match it against each option's raw
`value`; then, if still not a member key, fall back to the first declared
key (empty string for an empty table). -/
def resolveEnumValue (ev : List (String × EnumInfo)) (v : Value) : Value :=
  let v1 :=
    if ¬ pyMemDict ev v ∧ ¬ pyHasKey ev (pyStr v) then
      match ev.find? (fun kv => pyStr (kv.2.value.getD (.vStr "")) == pyStr v) with
      | some kv => .vStr kv.1
      | none => v
    else v
  if ¬ pyMemDict ev v1 then
    match ev with
    | [] => .vStr ""
    | kv :: _ => .vStr kv.1
  else v1

/-- The stored-key validation of `register_enum_properties`
(`hson_template.py` lines 169-187): the fallback default is
`enum_def.get("default_key", items[0][0])`, whose second argument Python
evaluates eagerly, so an empty `values` table raises `IndexError` (modelled
as `none`) even when `default_key` is declared.  An invalid (or absent)
stored value is replaced by the declared default key, or by the first
declared key when no default is declared. -/
def registerResolvedKey (ed : EnumDef) (stored : Option String) : Option String :=
  match ed.values with
  | [] => none
  | kv :: _ =>
    let default_key := ed.default_key.getD kv.1
    some (match stored with
      | some s => if (ed.values.map Prod.fst).contains s then s else default_key
      | none => default_key)

/-- The `default_val` of the primitive-subtype array branch
(`hson_template.py` lines 261-264). -/
def arrayDefault (subtype_lower : String) : Value :=
  if ["int", "uint32", "uint8", "uint16", "uint64",
      "int8", "int16", "int32", "int64"].contains subtype_lower then .vInt 0
  else if ["float", "float32"].contains subtype_lower then .vFloat 0
  else if subtype_lower == "bool" then .vBool false
  else .vStr ""

/-- Resolution of an `array` field with primitive subtype
(`hson_template.py` lines 260-267): `new_val = arr if arr and
len(arr) >= size else []`, then `while len(new_val) < size:
new_val.append(default_val)`.  The pad loop only ever runs on the fresh
empty list (the kept `arr` already has length `>= size`), so a truthy
array shorter than `size` is dropped entirely and replaced by `size`
copies of the subtype default. -/
def resolveArrayPrim (arr : Value) (size : Nat) (subtype_lower : String) : Value :=
  if pyTruthy arr ∧ vLen arr ≥ size then arr
  else .vList (List.replicate size (arrayDefault subtype_lower))

/-- The per-type zero default chosen by substring tests on a lowered type
name: `0.0 if "float" in t else (0 if "int" in t else (False if "bool"
in t else ""))`. -/
def zeroBySubstr (type_lower : String) : Value :=
  if pyContains type_lower "float" then .vFloat 0
  else if pyContains type_lower "int" then .vInt 0
  else if pyContains type_lower "bool" then .vBool false
  else .vStr ""

/-- The in-place parent-merge loop of the inline sub-struct path
(`hson_template.py` lines 319-326): walk the whole parent chain, collecting
each ancestor's declared fields, stopping at a missing struct or a falsy
parent name.  The Python loop has no cycle guard and diverges on a cyclic
chain; `fuel` (instantiated with `structs.length + 1`, enough for every
terminating run) models only the terminating executions. -/
def inlineParentFields (structs : Structs) : Option String → Nat → List FieldDef
  | _, 0 => []
  | none, _ => []
  | some p, fuel + 1 =>
    if p = "" then []
    else
      match pyGet structs p with
      | some psd => psd.fields ++ inlineParentFields structs psd.parent fuel
      | none => []

/-- The `recognized` primitive-type set of `apply_hson_template_to_object`. -/
def recognizedTypes : List String :=
  ["int", "int8", "int16", "int32", "int64",
   "uint32", "uint8", "uint16", "uint64",
   "float", "float32", "bool", "string", "vector", "array", "vector3"]

/-- The primitive subtype set of the array branch. -/
def arrayPrimitives : List String :=
  ["uint32", "uint8", "uint16", "uint64", "int", "float", "bool", "string",
   "vector3", "object_reference"]

/-- Shared tail of sub-field value resolution in the array-of-struct and
inline sub-struct paths: imported override, enum stringification, string
list-wrapping (`hson_template.py` lines 282-287 and 336-341). -/
def subFieldValue (imported : List (String × Value)) (new_key : String)
    (sub_ftype : String) (initial : Value) : Value :=
  let v1 :=
    match (if !imported.isEmpty then pyGet imported new_key else none) with
    | some v => v
    | none => initial
  let v2 :=
    if pyContains sub_ftype "::" then
      match v1 with
      | .vStr "" => .vStr ""
      | .vNull => .vStr ""
      | v => .vStr (pyStr v)
    else v1
  if pyLower sub_ftype == "string" then
    match v2 with
    | .vList l => .vList l
    | v => .vList [v]
  else v2

/-- `imported_params[key] if imported_params and key in imported_params
else dflt` - the imported-bag override used throughout the field loop. -/
def importedOverride (imported : List (String × Value)) (key : String)
    (dflt : Value) : Value :=
  match (if !imported.isEmpty then pyGet imported key else none) with
  | some v => v
  | none => dflt

/-- The `object_reference`-to-`string` type rewrite applied before
branching (`hson_template.py` lines 248-249); `if ftype and ...` is Python
truthiness on the type string. -/
def resolvedFType (f : FieldDef) : String :=
  if f.type ≠ "" ∧ pyLower f.type == "object_reference" then "string" else f.type

/-- The `(key, value, type)` writes of the array-of-struct expansion
(`hson_template.py` lines 272-289): `array_size` groups keyed
`{field}{idx}:{subfield}`, drawing initial values from the idx-th dict of
the source array when present; only the sub-struct's own declared fields
are iterated - no parent fields are merged on this path. -/
def arrayStructSubWrites (imported : List (String × Value)) (fname : String)
    (arr : Value) (size : Nat) (sub_sd : StructDef) :
    List (String × Value × String) :=
  (List.range size).flatMap (fun idx =>
    sub_sd.fields.map (fun sf =>
      let new_key := fname ++ toString idx ++ ":" ++ sf.name
      let initial :=
        match arr with
        | .vList l =>
          if l.length > idx then
            match l.getD idx .vNull with
            | .vDict d => (pyGet d sf.name).getD (.vStr "")
            | _ => zeroBySubstr (pyLower sf.type)
          else zeroBySubstr (pyLower sf.type)
        | _ => zeroBySubstr (pyLower sf.type)
      (new_key, subFieldValue imported new_key sf.type initial, sf.type)))

/-- The `(key, value, type)` writes of the inline sub-struct expansion
(`hson_template.py` lines 327-343), iterating the (already
parent-extended) field list `ext` with keys `{field}:{subfield}`. -/
def inlineSubWrites (tmplObj imported : List (String × Value)) (fname : String)
    (ext : List FieldDef) : List (String × Value × String) :=
  ext.map (fun sf =>
    let new_key := fname ++ ":" ++ sf.name
    let initial :=
      match pyGet tmplObj fname with
      | some (.vDict d) => (pyGet d sf.name).getD (.vStr "")
      | _ => zeroBySubstr (pyLower sf.type)
    (new_key, subFieldValue imported new_key sf.type initial, sf.type))

/-- Value resolution for a recognized-primitive or enum-referenced field
(`hson_template.py` lines 294-313): object default, imported override,
enum key resolution, string list-wrapping. -/
def recognizedValue (tmplObj imported : List (String × Value)) (enums : Enums)
    (fname ftype ftype_lower : String) : Value :=
  let default_val := (pyGet tmplObj fname).getD (zeroBySubstr ftype_lower)
  let v0 := importedOverride imported fname default_val
  let v1 :=
    if pyContains ftype "::" then
      match (match pyGet enums ftype with
             | some ed => some ed
             | none => pyGet enums ((pySplitStr ftype "::").getLastD ftype)) with
      | some ed => resolveEnumValue ed.values v0
      | none => v0
    else v0
  if ftype_lower == "string" then
    match v1 with
    | .vList l => .vList l
    | v => .vList [v]
  else v1

/-- The parameter/type writes produced by one iteration of the field loop of
`apply_hson_template_to_object` (`hson_template.py` lines 245-343), plus the
(possibly mutated) `structs` table: the inline sub-struct path extends the
referenced struct's field list in place with the whole ancestor chain.
Returns (parameter writes, type writes, updated structs). -/
def fieldWrites (tmplObj imported : List (String × Value)) (enums : Enums)
    (structs : Structs) (f : FieldDef) :
    List (String × Value) × List (String × String) × Structs :=
  let fname := f.name
  let ftype := resolvedFType f
  let ftype_lower := pyLower ftype
  if ftype_lower == "array" ∧ f.subtype.isSome then
    let subtype := f.subtype.getD ""
    let subtype_lower := pyLower subtype
    let arr := importedOverride imported fname ((pyGet tmplObj fname).getD (.vList []))
    let size := f.array_size.getD 1
    if arrayPrimitives.contains subtype_lower then
      ([(fname, resolveArrayPrim arr size subtype_lower)], [(fname, subtype)], structs)
    else
      match pyGet structs subtype with
      | some sub_sd =>
        let writes := arrayStructSubWrites imported fname arr size sub_sd
        (writes.map (fun w => (w.1, w.2.1)), writes.map (fun w => (w.1, w.2.2)), structs)
      | none => ([(fname, arr)], [(fname, "array")], structs)
  else if recognizedTypes.contains ftype_lower ∨ pyContains ftype "::" then
    ([(fname, recognizedValue tmplObj imported enums fname ftype ftype_lower)],
     [(fname, ftype)], structs)
  else
    match pyGet structs ftype with
    | some sub_sd =>
      let ext := sub_sd.fields ++ inlineParentFields structs sub_sd.parent (structs.length + 1)
      let structs' := pyDictSet structs ftype { sub_sd with fields := ext }
      let writes := inlineSubWrites tmplObj imported fname ext
      (writes.map (fun w => (w.1, w.2.1)), writes.map (fun w => (w.1, w.2.2)), structs')
    | none => ([], [], structs)

/-- The parameter, type and structs state threaded through the field loop. -/
structure ApplyState where
  params : List (String × Value)
  types : List (String × String)
  structs : Structs

/-- One iteration of the field loop: fold this field's writes into the flat
parameter and type maps (`params[key] = value` semantics: the last write to
a key wins). -/
def processOneField (tmplObj imported : List (String × Value)) (enums : Enums)
    (st : ApplyState) (f : FieldDef) : ApplyState :=
  let (pw, tw, structs') := fieldWrites tmplObj imported enums st.structs f
  { params := pw.foldl (fun a kv => pyDictSet a kv.1 kv.2) st.params,
    types := tw.foldl (fun a kv => pyDictSet a kv.1 kv.2) st.types,
    structs := structs' }

/-- The two synthetic `tags:RangeSpawning` parameters injected before any
schema-driven field (`hson_template.py` lines 236-239). -/
def initialParams (imported : List (String × Value)) : List (String × Value) :=
  [("tags:RangeSpawning:rangeIn",
    match (if !imported.isEmpty then pyGet imported "tags:RangeSpawning:rangeIn" else none) with
    | some v => v
    | none => .vFloat 500),
   ("tags:RangeSpawning:rangeOut",
    match (if !imported.isEmpty then pyGet imported "tags:RangeSpawning:rangeOut" else none) with
    | some v => v
    | none => .vFloat 20)]

/-- The field loop of `apply_hson_template_to_object` over a given field
list, starting from the synthetic parameters. -/
def applyFields (tmplObj imported : List (String × Value)) (enums : Enums)
    (structs : Structs) (fields : List FieldDef) : ApplyState :=
  fields.foldl (processOneField tmplObj imported enums)
    { params := initialParams imported,
      types := [("tags:RangeSpawning:rangeIn", "float"),
                ("tags:RangeSpawning:rangeOut", "float")],
      structs := structs }

/-- `apply_hson_template_to_object` restricted to its schema-resolution and
marshalling core: resolve the object struct's field list, then process every
field. -/
def applyTemplateCore (structs : Structs) (enums : Enums)
    (tmplObj imported : List (String × Value)) (objStruct : String) : ApplyState :=
  applyFields tmplObj imported enums structs (get_struct_fields structs objStruct [])

/-- The resolver as the specification describes it, written independently of
the implementation for refinement: the recursively-resolved parent fields
strictly precede the struct's own fields, declaration order is preserved
within each level, and nothing is deduplicated.  `fuel` bounds the recursion;
`none` means the parent chain did not bottom out within `fuel` steps (in
particular a cyclic chain yields `none` for every fuel). -/
def resolve_fields_spec (structs : Structs) : Nat → String → Option (List FieldDef)
  | 0, _ => none
  | fuel + 1, name =>
    match pyGet structs name with
    | none => some []
    | some sd =>
      match sd.parent with
      | none => some sd.fields
      | some p =>
        if p = "" then some sd.fields
        else (resolve_fields_spec structs fuel p).map (· ++ sd.fields)

/-- The chain of struct names walked by the ideal resolution, the struct
itself first. -/
def chain_spec (structs : Structs) : Nat → String → Option (List String)
  | 0, _ => none
  | fuel + 1, name =>
    match pyGet structs name with
    | none => some [name]
    | some sd =>
      match sd.parent with
      | none => some [name]
      | some p =>
        if p = "" then some [name]
        else (chain_spec structs fuel p).map (name :: ·)

theorem chain_spec_head {structs : Structs} {fuel : Nat} {name : String}
    {c : List String} (h : chain_spec structs fuel name = some c) :
    ∃ t, c = name :: t := by
  cases fuel with
  | zero => simp [chain_spec] at h
  | succ fuel =>
    simp only [chain_spec] at h
    split at h
    · exact ⟨[], by simpa using h.symm⟩
    · split at h
      · exact ⟨[], by simpa using h.symm⟩
      · split at h
        · exact ⟨[], by simpa using h.symm⟩
        · rcases Option.map_eq_some'.mp h with ⟨cp, _, rfl⟩
          exact ⟨cp, rfl⟩

theorem chain_spec_fuel_irrel {structs : Structs} :
    ∀ {f1 f2 : Nat} {name : String} {c1 c2 : List String},
      chain_spec structs f1 name = some c1 →
      chain_spec structs f2 name = some c2 → c1 = c2 := by
  intro f1
  induction f1 with
  | zero => intro f2 name c1 c2 h1; simp [chain_spec] at h1
  | succ f1 ih =>
    intro f2 name c1 c2 h1 h2
    cases f2 with
    | zero => simp [chain_spec] at h2
    | succ f2 =>
      simp only [chain_spec] at h1 h2
      cases hget : pyGet structs name with
      | none => simp only [hget] at h1 h2; simp at h1 h2; rw [← h1, ← h2]
      | some sd =>
        simp only [hget] at h1 h2
        cases hpar : sd.parent with
        | none => simp only [hpar] at h1 h2; simp at h1 h2; rw [← h1, ← h2]
        | some p =>
          simp only [hpar] at h1 h2
          by_cases hp : p = ""
          · simp [hp] at h1 h2; rw [← h1, ← h2]
          · simp [hp] at h1 h2
            rcases h1 with ⟨cp1, hc1, rfl⟩
            rcases h2 with ⟨cp2, hc2, rfl⟩
            rw [ih hc1 hc2]

theorem chain_spec_mem_tail {structs : Structs} :
    ∀ {fuel : Nat} {name m : String} {t : List String},
      chain_spec structs fuel name = some (name :: t) → m ∈ t →
      ∃ f2 c2, chain_spec structs f2 m = some c2 ∧ c2.length ≤ t.length := by
  intro fuel
  induction fuel with
  | zero => intro name m t h; simp [chain_spec] at h
  | succ fuel ih =>
    intro name m t h hm
    simp only [chain_spec] at h
    cases hget : pyGet structs name with
    | none => simp only [hget] at h; simp at h; subst h; simp at hm
    | some sd =>
      simp only [hget] at h
      cases hpar : sd.parent with
      | none => simp only [hpar] at h; simp at h; subst h; simp at hm
      | some p =>
        simp only [hpar] at h
        by_cases hp : p = ""
        · simp [hp] at h; subst h; simp at hm
        · simp [hp] at h
          rcases chain_spec_head h with ⟨tp, rfl⟩
          rcases List.mem_cons.mp hm with rfl | hm'
          · exact ⟨fuel, m :: tp, h, le_refl _⟩
          · rcases ih h hm' with ⟨f2, c2, hc2, hlen⟩
            exact ⟨f2, c2, hc2, Nat.le_succ_of_le hlen⟩

theorem chain_spec_nodup {structs : Structs} :
    ∀ {fuel : Nat} {name : String} {c : List String},
      chain_spec structs fuel name = some c → c.Nodup := by
  intro fuel
  induction fuel with
  | zero => intro name c h; simp [chain_spec] at h
  | succ fuel ih =>
    intro name c h
    simp only [chain_spec] at h
    cases hget : pyGet structs name with
    | none => simp only [hget] at h; simp at h; subst h; simp
    | some sd =>
      simp only [hget] at h
      cases hpar : sd.parent with
      | none => simp only [hpar] at h; simp at h; subst h; simp
      | some p =>
        simp only [hpar] at h
        by_cases hp : p = ""
        · simp [hp] at h; subst h; simp
        · simp [hp] at h
          rcases h with ⟨cp, hcp, rfl⟩
          refine List.nodup_cons.mpr ⟨?_, ih hcp⟩
          intro hmem
          rcases chain_spec_head hcp with ⟨tp, rfl⟩
          have hfull : chain_spec structs (fuel + 1) name = some (name :: p :: tp) := by
            simp only [chain_spec, hget, hpar, if_neg hp, hcp, Option.map_some']
          rcases chain_spec_mem_tail hfull hmem with ⟨f2, c2, hc2, hlen⟩
          have hceq := chain_spec_fuel_irrel hc2 hfull
          subst hceq
          simp at hlen

theorem chain_of_resolve {structs : Structs} :
    ∀ {fuel : Nat} {name : String} {r : List FieldDef},
      resolve_fields_spec structs fuel name = some r →
      ∃ c, chain_spec structs fuel name = some c := by
  intro fuel
  induction fuel with
  | zero => intro name r h; simp [resolve_fields_spec] at h
  | succ fuel ih =>
    intro name r h
    simp only [resolve_fields_spec] at h
    simp only [chain_spec]
    cases hget : pyGet structs name with
    | none => exact ⟨[name], rfl⟩
    | some sd =>
      simp only [hget] at h ⊢
      cases hpar : sd.parent with
      | none => exact ⟨[name], rfl⟩
      | some p =>
        simp only [hpar] at h ⊢
        by_cases hp : p = ""
        · simp [hp]
        · simp only [if_neg hp] at h ⊢
          rcases Option.map_eq_some'.mp h with ⟨rp, hrp, _⟩
          rcases ih hrp with ⟨cp, hcp⟩
          exact ⟨name :: cp, by simp [hcp]⟩

theorem gsf_refines_spec {structs : Structs} :
    ∀ {fuel : Nat} {name : String} {r : List FieldDef} {c visited : List String},
      resolve_fields_spec structs fuel name = some r →
      chain_spec structs fuel name = some c →
      (∀ m ∈ c, m ∉ visited) →
      get_struct_fields structs name visited = r := by
  intro fuel
  induction fuel with
  | zero => intro name r c visited h _ _; simp [resolve_fields_spec] at h
  | succ fuel ih =>
    intro name r c visited h hc hdisj
    have hnv : name ∉ visited := by
      rcases chain_spec_head hc with ⟨t, rfl⟩
      exact hdisj name (by simp)
    simp only [resolve_fields_spec] at h
    simp only [chain_spec] at hc
    rw [get_struct_fields]
    simp only [if_neg hnv]
    split
    · rename_i hget
      simp only [hget] at h
      simp at h
      exact h.symm
    · rename_i struct_def hget
      simp only [hget] at h hc
      cases hpar : struct_def.parent with
      | none =>
        simp only [hpar] at h ⊢
        simp at h
        simp [h]
      | some p =>
        simp only [hpar] at h hc ⊢
        by_cases hp : p = ""
        · simp only [if_pos hp] at h ⊢
          simp at h
          simp [h]
        · simp only [if_neg hp] at h hc ⊢
          rcases Option.map_eq_some'.mp h with ⟨rp, hrp, hr⟩
          rcases Option.map_eq_some'.mp hc with ⟨cp, hcp, hceq⟩
          subst hceq
          have hfull : chain_spec structs (fuel + 1) name = some (name :: cp) := by
            simp only [chain_spec, hget, hpar, if_neg hp, hcp, Option.map_some']
          have hnodup := chain_spec_nodup hfull
          have hdisj' : ∀ m ∈ cp, m ∉ name :: visited := by
            intro m hm
            simp only [List.mem_cons, not_or]
            exact ⟨fun heq => (List.nodup_cons.mp hnodup).1 (heq ▸ hm),
                   hdisj m (List.mem_cons_of_mem _ hm)⟩
          rw [ih hrp hcp hdisj']
          exact hr

theorem pyGet_pyDictSet_same {α : Type} (d : List (String × α)) (k : String) (v : α) :
    pyGet (pyDictSet d k v) k = some v := by
  induction d with
  | nil => simp [pyDictSet, pyGet, List.find?]
  | cons kv rest ih =>
    cases kv with
    | mk k0 v0 =>
      by_cases h0 : (k0 == k) = true
      · simp only [pyDictSet, if_pos h0]
        simp [pyGet, List.find?]
      · have h0' : (k0 == k) = false := by simpa using h0
        simp only [pyDictSet, h0', Bool.false_eq_true, if_false]
        simp only [pyGet, List.find?_cons, h0']
        simpa [pyGet] using ih

theorem pyGet_pyDictSet_other {α : Type} (d : List (String × α)) (k k' : String) (v : α)
    (hne : k ≠ k') : pyGet (pyDictSet d k v) k' = pyGet d k' := by
  induction d with
  | nil =>
    have : (k == k') = false := by simpa using hne
    simp [pyDictSet, pyGet, List.find?, this]
  | cons kv rest ih =>
    cases kv with
    | mk k0 v0 =>
      by_cases h0 : (k0 == k) = true
      · have h0e : k0 = k := by simpa using h0
        have hne' : (k == k') = false := by simpa using hne
        have hne0 : (k0 == k') = false := by rw [h0e]; exact hne'
        simp only [pyDictSet, if_pos h0]
        simp [pyGet, List.find?_cons, hne', hne0]
      · have h0' : (k0 == k) = false := by simpa using h0
        simp only [pyDictSet, h0', Bool.false_eq_true, if_false]
        by_cases h1 : (k0 == k') = true
        · simp [pyGet, List.find?_cons, h1]
        · have h1' : (k0 == k') = false := by simpa using h1
          simp only [pyGet, List.find?_cons, h1']
          simpa [pyGet] using ih

/-- The flat-parameter-map copy: fold `params[key] = value` writes left to
right, starting from the empty dict. -/
def copyToMap (writes : List (String × Value)) : List (String × Value) :=
  writes.foldl (fun a kv => pyDictSet a kv.1 kv.2) []

theorem pyGet_foldl_set {writes : List (String × Value)} :
    ∀ {acc : List (String × Value)} {k : String},
      pyGet (writes.foldl (fun a kv => pyDictSet a kv.1 kv.2) acc) k =
        ((writes.reverse.find? (fun w => w.1 == k)).map Prod.snd).or (pyGet acc k) := by
  induction writes with
  | nil => intro acc k; simp
  | cons w rest ih =>
    intro acc k
    simp only [List.foldl_cons, List.reverse_cons]
    rw [ih, List.find?_append]
    cases hf : rest.reverse.find? (fun w => w.1 == k) with
    | some w' => simp [Option.or]
    | none =>
      simp only [Option.map, Option.none_or]
      by_cases hk : (w.1 == k) = true
      · have hke : w.1 = k := by simpa using hk
        simp only [List.find?_cons, hk, List.find?_nil]
        rw [← hke, pyGet_pyDictSet_same]
        simp [Option.or]
      · have hk' : (w.1 == k) = false := by simpa using hk
        simp only [List.find?_cons, hk', List.find?_nil]
        simp only [Option.map_none', Option.none_or]
        exact pyGet_pyDictSet_other _ _ _ _ (by simpa using hk)

theorem pyGet_copyToMap (writes : List (String × Value)) (k : String) :
    pyGet (copyToMap writes) k =
      (writes.reverse.find? (fun w => w.1 == k)).map Prod.snd := by
  unfold copyToMap
  rw [pyGet_foldl_set]
  simp [pyGet, List.find?]

theorem gsf_mem {structs : Structs} {name : String} {visited : List String}
    (h : name ∈ visited) : get_struct_fields structs name visited = [] := by
  rw [get_struct_fields]; simp [h]

theorem gsf_none {structs : Structs} {name : String} {visited : List String}
    (h1 : name ∉ visited) (h2 : pyGet structs name = none) :
    get_struct_fields structs name visited = [] := by
  rw [get_struct_fields]
  simp only [if_neg h1]
  split
  · rfl
  · rename_i sd heq
    rw [h2] at heq
    cases heq

theorem gsf_some {structs : Structs} {name : String} {visited : List String}
    {sd : StructDef} (h1 : name ∉ visited) (h2 : pyGet structs name = some sd) :
    get_struct_fields structs name visited =
      (match sd.parent with
       | some p => if p = "" then [] else get_struct_fields structs p (name :: visited)
       | none => []) ++ sd.fields := by
  rw [get_struct_fields]
  simp only [if_neg h1]
  split
  · rename_i heq
    rw [h2] at heq
    cases heq
  · rename_i sd' heq
    rw [h2] at heq
    cases heq
    rfl

theorem anc_mem {structs : Structs} {name : String} {visited : List String}
    (h : name ∈ visited) : ancestorChain structs name visited = [] := by
  rw [ancestorChain]; simp [h]

theorem anc_none {structs : Structs} {name : String} {visited : List String}
    (h1 : name ∉ visited) (h2 : pyGet structs name = none) :
    ancestorChain structs name visited = [] := by
  rw [ancestorChain]
  simp only [if_neg h1]
  split
  · rfl
  · rename_i sd heq
    rw [h2] at heq
    cases heq

theorem anc_some {structs : Structs} {name : String} {visited : List String}
    {sd : StructDef} (h1 : name ∉ visited) (h2 : pyGet structs name = some sd) :
    ancestorChain structs name visited =
      (match sd.parent with
       | some p => if p = "" then [] else ancestorChain structs p (name :: visited)
       | none => []) ++ [name] := by
  rw [ancestorChain]
  simp only [if_neg h1]
  split
  · rename_i heq
    rw [h2] at heq
    cases heq
  · rename_i sd' heq
    rw [h2] at heq
    cases heq
    rfl

theorem gsf_eq_flatMap (structs : Structs) (name : String) (visited : List String) :
    get_struct_fields structs name visited =
      (ancestorChain structs name visited).flatMap (fieldsOf structs) := by
  induction name, visited using get_struct_fields.induct structs with
  | case1 n vis hmem => rw [gsf_mem hmem, anc_mem hmem]; rfl
  | case2 n vis hmem hget => rw [gsf_none hmem hget, anc_none hmem hget]; rfl
  | case3 n vis hmem sd hget ih =>
    rw [gsf_some hmem hget, anc_some hmem hget]
    cases hpar : sd.parent with
    | none => simp [fieldsOf, hget]
    | some p =>
      by_cases hp : p = ""
      · simp [hp, fieldsOf, hget]
      · simp only [if_neg hp]
        rw [ih p, List.flatMap_append]
        simp [fieldsOf, hget]

theorem ancestorChain_nodup_mem (structs : Structs) (name : String)
    (visited : List String) :
    (ancestorChain structs name visited).Nodup ∧
      ∀ m ∈ ancestorChain structs name visited,
        m ∉ visited ∧ m ∈ structs.map Prod.fst := by
  induction name, visited using get_struct_fields.induct structs with
  | case1 n vis hmem => rw [anc_mem hmem]; simp
  | case2 n vis hmem hget => rw [anc_none hmem hget]; simp
  | case3 n vis hmem sd hget ih =>
    rw [anc_some hmem hget]
    cases hpar : sd.parent with
    | none =>
      refine ⟨by simp, ?_⟩
      intro m hm
      have hmn : m = n := by simpa using hm
      subst hmn
      exact ⟨hmem, pyGet_mem_keys hget⟩
    | some p =>
      by_cases hp : p = ""
      · simp only [if_pos hp]
        refine ⟨by simp, ?_⟩
        intro m hm
        have hmn : m = n := by simpa using hm
        subst hmn
        exact ⟨hmem, pyGet_mem_keys hget⟩
      · simp only [if_neg hp]
        obtain ⟨hnd, hmm⟩ := ih p
        constructor
        · refine List.Nodup.append hnd (by simp) ?_
          intro a ha hb
          simp at hb
          subst hb
          exact (hmm a ha).1 (by simp)
        · intro m hm
          rcases List.mem_append.mp hm with h | h
          · have hthis := hmm m h
            exact ⟨fun hv => hthis.1 (List.mem_cons_of_mem _ hv), hthis.2⟩
          · simp at h
            subst h
            exact ⟨hmem, pyGet_mem_keys hget⟩

/-- C1: for every struct name whose parent chain is acyclic (that is, the
ideal recursive resolution `resolve_fields_spec` terminates within some
fuel), `get_struct_fields` returns exactly the recursively-resolved parent
fields strictly before the struct's own fields, preserving declaration
order within each level and keeping duplicated names; and when any write
list is copied into a flat parameter map, the value at a key is that of
the last write to it, so a child duplicate wins over the parent's entry. -/
theorem claim_C1_inheritance_order (structs : Structs) (fuel : Nat) (name : String)
    (r : List FieldDef) (h : resolve_fields_spec structs fuel name = some r) :
    get_struct_fields structs name [] = r ∧
    ∀ (writes : List (String × Value)) (k : String),
      pyGet (copyToMap writes) k =
        (writes.reverse.find? (fun w => w.1 == k)).map Prod.snd := by
  constructor
  · rcases chain_of_resolve h with ⟨c, hc⟩
    exact gsf_refines_spec h hc (by intro m _; simp)
  · intro writes k
    exact pyGet_copyToMap writes k

theorem claim_C1_witness :
    resolve_fields_spec
        [("Base", { fields := [{ name := "hp", type := "int" }] }),
         ("Child", { parent := some "Base",
                     fields := [{ name := "hp", type := "float" },
                                { name := "spd", type := "float" }] })]
        2 "Child" =
      some [{ name := "hp", type := "int" }, { name := "hp", type := "float" },
            { name := "spd", type := "float" }] ∧
    get_struct_fields
        [("Base", { fields := [{ name := "hp", type := "int" }] }),
         ("Child", { parent := some "Base",
                     fields := [{ name := "hp", type := "float" },
                                { name := "spd", type := "float" }] })]
        "Child" [] =
      [{ name := "hp", type := "int" }, { name := "hp", type := "float" },
       { name := "spd", type := "float" }] ∧
    pyGet (copyToMap [("hp", .vInt 1), ("hp", .vFloat 2)]) "hp" = some (.vFloat 2) := by
  have h : resolve_fields_spec
      [("Base", { fields := [{ name := "hp", type := "int" }] }),
       ("Child", { parent := some "Base",
                   fields := [{ name := "hp", type := "float" },
                              { name := "spd", type := "float" }] })]
      2 "Child" =
      some [{ name := "hp", type := "int" }, { name := "hp", type := "float" },
            { name := "spd", type := "float" }] := by decide
  have hmain := claim_C1_inheritance_order _ 2 "Child" _ h
  refine ⟨h, hmain.1, ?_⟩
  rw [hmain.2]
  rfl

/-- C10: field resolution is total (it terminates on every struct table and
name, cyclic parent chains included), and its result is exactly the
concatenation of the declared field lists along the resolved ancestor
chain, which is duplicate-free and drawn from the declared structs: a
revisited struct contributes nothing, so a cyclic chain yields the fields
of its non-cyclic prefix, and the result size is bounded by the sum of the
chain's declared field-list lengths. -/
theorem claim_C10_cycle_termination (structs : Structs) (name : String) :
    get_struct_fields structs name [] =
      (ancestorChain structs name []).flatMap (fieldsOf structs) ∧
    (ancestorChain structs name []).Nodup ∧
    (∀ m ∈ ancestorChain structs name [], m ∈ structs.map Prod.fst) ∧
    (get_struct_fields structs name []).length =
      ((ancestorChain structs name []).map (fun n => (fieldsOf structs n).length)).sum := by
  have h1 := gsf_eq_flatMap structs name []
  have h2 := ancestorChain_nodup_mem structs name []
  refine ⟨h1, h2.1, fun m hm => (h2.2 m hm).2, ?_⟩
  rw [h1]
  rw [List.length_flatMap]
  rfl

/-- C2 counterexample: for the array field value `[7]` with subtype `int`
and `array_size = 3`, the resolved value is `[0, 0, 0]` - a full-default
array - and not the tail-padded `[7, 0, 0]` the claim describes: the code
drops a truthy array shorter than `array_size` entirely. -/
theorem claim_C2_counterexample :
    resolveArrayPrim (.vList [.vInt 7]) 3 "int" =
      .vList [.vInt 0, .vInt 0, .vInt 0] ∧
    resolveArrayPrim (.vList [.vInt 7]) 3 "int" ≠
      .vList [.vInt 7, .vInt 0, .vInt 0] := by
  constructor
  · rfl
  · intro h
    have h' : Value.vList [.vInt 0, .vInt 0, .vInt 0] =
        Value.vList [.vInt 7, .vInt 0, .vInt 0] := by
      rw [← h]
      rfl
    simp at h'

/-- C2 amended: for an array field with primitive subtype and
`array_size = size`, whenever the provided array value is a list shorter
than `size` the resolved value is a list of exactly `size` copies of the
subtype's type-appropriate default (`0`, `0.0`, `false`, `""`) - the short
array's own elements are discarded rather than tail-padded - so in
particular the result has length exactly `size`. -/
theorem claim_C2_amended (l : List Value) (size : Nat) (st : String)
    (h : l.length < size) :
    resolveArrayPrim (.vList l) size st =
      .vList (List.replicate size (arrayDefault st)) ∧
    vLen (resolveArrayPrim (.vList l) size st) = size := by
  have hcond : ¬ ((pyTruthy (.vList l)) = true ∧ vLen (.vList l) ≥ size) := by
    rintro ⟨_, hge⟩
    simp only [vLen] at hge
    omega
  constructor
  · unfold resolveArrayPrim
    rw [if_neg hcond]
  · unfold resolveArrayPrim
    rw [if_neg hcond]
    simp [vLen]

theorem claim_C2_witness :
    [Value.vInt 7].length < 3 ∧
    resolveArrayPrim (.vList [.vInt 7]) 3 "uint8" =
      .vList (List.replicate 3 (arrayDefault "uint8")) ∧
    vLen (resolveArrayPrim (.vList [.vInt 7]) 3 "uint8") = 3 := by
  have h := claim_C2_amended [Value.vInt 7] 3 "uint8" (by decide)
  exact ⟨by decide, h.1, h.2⟩

/-- C3: for an enum-referenced field whose resolved value is neither a
member key of the enum's value table nor equal, as a string, to any
option's raw value, the marshalling path (`apply_hson_template_to_object`)
resolves it to the enum's first declared key, and the registration path
(`register_enum_properties`) resolves an invalid stored key to the enum's
explicit declared default when one exists, else to the first declared key. -/
theorem claim_C3_enum_fallback (ev : List (String × EnumInfo)) (v : Value)
    (ed : EnumDef) (stored : Option String) (kv0 : String × EnumInfo)
    (rest : List (String × EnumInfo)) (dkv0 : String × EnumInfo)
    (drest : List (String × EnumInfo))
    (hev : ev = kv0 :: rest)
    (hdv : ed.values = dkv0 :: drest)
    (hnk : pyMemDict ev v = false)
    (hnraw : ∀ kv ∈ ev, pyStr (kv.2.value.getD (.vStr "")) ≠ pyStr v)
    (hsk : ∀ s, stored = some s → ((ed.values.map Prod.fst).contains s) = false) :
    resolveEnumValue ev v = .vStr kv0.1 ∧
    registerResolvedKey ed stored = some (ed.default_key.getD dkv0.1) := by
  constructor
  · subst hev
    by_cases hstr : pyHasKey (kv0 :: rest) (pyStr v) = true
    · simp [resolveEnumValue, hnk, hstr]
    · have hstr' : pyHasKey (kv0 :: rest) (pyStr v) = false := by
        simpa using hstr
      have hfind : (kv0 :: rest).find?
          (fun kv => pyStr (kv.2.value.getD (.vStr "")) == pyStr v) = none := by
        apply List.find?_eq_none.mpr
        intro kv hkv
        simpa using hnraw kv hkv
      simp [resolveEnumValue, hnk, hstr', hfind]
  · unfold registerResolvedKey
    rw [hdv]
    cases hs : stored with
    | none => rfl
    | some s =>
      have hc := hsk s hs
      rw [hdv] at hc
      simp only [hc, Bool.false_eq_true, if_false]

theorem claim_C3_witness :
    ([("alpha", ({ value := some (.vStr "0") } : EnumInfo)),
      ("beta", ({ value := some (.vStr "1") } : EnumInfo))] :
        List (String × EnumInfo)) =
      ("alpha", ({ value := some (.vStr "0") } : EnumInfo)) ::
        [("beta", ({ value := some (.vStr "1") } : EnumInfo))] ∧
    resolveEnumValue
      [("alpha", { value := some (.vStr "0") }),
       ("beta", { value := some (.vStr "1") })] (.vStr "gamma") = .vStr "alpha" ∧
    registerResolvedKey
      { default_key := some "beta",
        values := [("alpha", { value := some (.vStr "0") }),
                   ("beta", { value := some (.vStr "1") })] }
      (some "gamma") = some "beta" := by
  have h := claim_C3_enum_fallback
    [("alpha", { value := some (.vStr "0") }), ("beta", { value := some (.vStr "1") })]
    (.vStr "gamma")
    { default_key := some "beta",
      values := [("alpha", { value := some (.vStr "0") }),
                 ("beta", { value := some (.vStr "1") })] }
    (some "gamma")
    ("alpha", { value := some (.vStr "0") })
    [("beta", { value := some (.vStr "1") })]
    ("alpha", { value := some (.vStr "0") })
    [("beta", { value := some (.vStr "1") })]
    rfl rfl (by decide)
    (by decide)
    (by intro s hs; cases hs; decide)
  exact ⟨rfl, h.1, h.2⟩

/-- One entry of a parameter item's `enum_items` collection. -/
structure EnumItemR where
  value : String
  name : String := ""
  description : String := ""
  selected : Bool := false
deriving DecidableEq, Repr, Inhabited

/-- The per-option selection test of the enum rebuild loop
(`hson_template.py` lines 370-371): the stored value (stringified,
stripped, lowercased) equals the option key lowercased, or equals the
option's raw `value` (stringified, stripped, lowercased). -/
def matchesStored (stored : String) (kv : String × EnumInfo) : Bool :=
  pyLower (pyStrip stored) == pyLower kv.1 ||
    pyLower (pyStrip stored) == pyLower (pyStrip (pyStr (kv.2.value.getD (.vStr ""))))

/-- The enum-option rebuild at the end of `apply_hson_template_to_object`
(`hson_template.py` lines 359-375): clear and rebuild `enum_items`, set
`selected` on every option whose key or raw value matches the stored
value, and force-select the first option when none matched. -/
def buildEnumItems (ev : List (String × EnumInfo)) (stored : String) : List EnumItemR :=
  let items : List EnumItemR := ev.map (fun kv =>
    { value := kv.1,
      name := kv.2.name.getD kv.1,
      description := kv.2.description.getD "",
      selected := matchesStored stored kv })
  if (items.all (fun it => !it.selected)) ∧ items ≠ [] then
    match items with
    | [] => []
    | it :: rest => { it with selected := true } :: rest
  else items

/-- C8 counterexample: with options `a` (raw value `"b"`) and `b` (raw
value `"1"`) and stored value `"b"`, option `a` matches by raw value and
option `b` matches by key, so two options end up selected simultaneously,
contradicting the claimed exactly-one invariant. -/
theorem claim_C8_counterexample :
    ((buildEnumItems
        [("a", { value := some (.vStr "b") }), ("b", { value := some (.vStr "1") })]
        "b").countP (fun it => it.selected)) = 2 ∧
    ¬ ((buildEnumItems
        [("a", { value := some (.vStr "b") }), ("b", { value := some (.vStr "1") })]
        "b").countP (fun it => it.selected) ≤ 1) := by
  constructor
  · decide
  · decide

/-- C8 amended: after template application, every enum option whose key
(case-insensitively) or raw value matches the stored value is selected,
so at least one option is selected whenever the option table is nonempty,
and when no option matches, exactly one - the first - is force-selected;
but several options can be selected simultaneously when several match.
Conjuncts 4 and 5 characterise the rebuilt list exactly: when some
option matches, each item's `selected` flag equals its own match test
(all matching options selected, no others); when none matches, the
result is the first option with `selected := true` followed by the
remaining options all with `selected := false`. -/
theorem claim_C8_amended (ev : List (String × EnumInfo)) (stored : String)
    (hne : ev ≠ []) :
    1 ≤ (buildEnumItems ev stored).countP (fun it => it.selected) ∧
    ((∀ kv ∈ ev, matchesStored stored kv = false) →
      (buildEnumItems ev stored).countP (fun it => it.selected) = 1) ∧
    (buildEnumItems ev stored).map (fun it => it.value) = ev.map Prod.fst ∧
    ((∃ kv ∈ ev, matchesStored stored kv = true) →
      buildEnumItems ev stored = ev.map (fun kv =>
        ({ value := kv.1, name := kv.2.name.getD kv.1,
           description := kv.2.description.getD "",
           selected := matchesStored stored kv } : EnumItemR))) ∧
    (∀ kv0 evrest, ev = kv0 :: evrest →
      (∀ kv ∈ ev, matchesStored stored kv = false) →
      buildEnumItems ev stored =
        ({ value := kv0.1, name := kv0.2.name.getD kv0.1,
           description := kv0.2.description.getD "",
           selected := true } : EnumItemR) ::
          evrest.map (fun kv =>
            ({ value := kv.1, name := kv.2.name.getD kv.1,
               description := kv.2.description.getD "",
               selected := false } : EnumItemR))) := by
  unfold buildEnumItems
  by_cases hcond : ((ev.map (fun kv =>
      ({ value := kv.1,
         name := kv.2.name.getD kv.1,
         description := kv.2.description.getD "",
         selected := matchesStored stored kv } : EnumItemR))).all
        (fun it => !it.selected)) = true ∧
      (ev.map (fun kv =>
      ({ value := kv.1,
         name := kv.2.name.getD kv.1,
         description := kv.2.description.getD "",
         selected := matchesStored stored kv } : EnumItemR))) ≠ []
  · rw [if_pos hcond]
    obtain ⟨hall, hnil⟩ := hcond
    cases hev : ev with
    | nil => exact absurd hev hne
    | cons kv0 evrest =>
      subst hev
      simp only [List.map_cons]
      have hallrest : ∀ it ∈ (evrest.map (fun kv =>
          ({ value := kv.1,
             name := kv.2.name.getD kv.1,
             description := kv.2.description.getD "",
             selected := matchesStored stored kv } : EnumItemR))), (!it.selected) = true := by
        intro it hit
        have := List.all_eq_true.mp hall it (by simp [List.map_cons]; right; simpa using hit)
        exact this
      have hcount0 : (evrest.map (fun kv =>
          ({ value := kv.1,
             name := kv.2.name.getD kv.1,
             description := kv.2.description.getD "",
             selected := matchesStored stored kv } : EnumItemR))).countP
            (fun it => it.selected) = 0 := by
        apply List.countP_eq_zero.mpr
        intro it hit
        have := hallrest it hit
        simpa using this
      refine ⟨?_, ?_, ?_, ?_, ?_⟩
      · simp [List.countP_cons, hcount0]
      · intro _
        simp [List.countP_cons, hcount0]
      · simp
      · rintro ⟨kv, hkv, hmatch⟩
        exfalso
        have hx := List.all_eq_true.mp hall _ (List.mem_map_of_mem _ hkv)
        simp [hmatch] at hx
      · intro kv0' evrest' hev' hnomatch
        obtain ⟨rfl, rfl⟩ : kv0' = kv0 ∧ evrest' = evrest := by
          injection hev' with h1 h2
          exact ⟨h1.symm, h2.symm⟩
        congr 1
        exact List.map_congr_left (fun kv hkv => by
          rw [hnomatch kv (List.mem_cons_of_mem _ hkv)])
  · rw [if_neg hcond]
    have hmapne : (ev.map (fun kv =>
        ({ value := kv.1,
           name := kv.2.name.getD kv.1,
           description := kv.2.description.getD "",
           selected := matchesStored stored kv } : EnumItemR))) ≠ [] := by
      simpa using hne
    have hex : ¬ ((ev.map (fun kv =>
        ({ value := kv.1,
           name := kv.2.name.getD kv.1,
           description := kv.2.description.getD "",
           selected := matchesStored stored kv } : EnumItemR))).all
          (fun it => !it.selected)) = true := by
      intro hall
      exact hcond ⟨hall, hmapne⟩
    refine ⟨?_, ?_, by simp, fun _ => rfl, ?_⟩
    · rcases List.exists_mem_of_ne_nil _ hmapne with ⟨it0, _⟩
      have : ∃ it ∈ (ev.map (fun kv =>
          ({ value := kv.1,
             name := kv.2.name.getD kv.1,
             description := kv.2.description.getD "",
             selected := matchesStored stored kv } : EnumItemR))), it.selected = true := by
        by_contra hno
        push_neg at hno
        apply hex
        apply List.all_eq_true.mpr
        intro it hit
        have hns := hno it hit
        simpa using hns
      rcases this with ⟨it, hit, hsel⟩
      have hpos : 0 < (ev.map (fun kv =>
          ({ value := kv.1,
             name := kv.2.name.getD kv.1,
             description := kv.2.description.getD "",
             selected := matchesStored stored kv } : EnumItemR))).countP
            (fun it => it.selected) := by
        apply List.countP_pos.mpr
        exact ⟨it, hit, hsel⟩
      omega
    · intro hnomatch
      exfalso
      apply hex
      apply List.all_eq_true.mpr
      intro it hit
      rcases List.mem_map.mp hit with ⟨kv, hkv, rfl⟩
      simp [hnomatch kv hkv]
    · intro kv0 evrest hev hnomatch
      exfalso
      apply hex
      apply List.all_eq_true.mpr
      intro it hit
      rcases List.mem_map.mp hit with ⟨kv, hkv, rfl⟩
      simp [hnomatch kv hkv]

theorem claim_C8_witness :
    ([("a", ({ value := some (.vStr "x") } : EnumInfo)),
        ("b", ({ value := some (.vStr "y") } : EnumInfo))] :
        List (String × EnumInfo)) ≠ [] ∧
    1 ≤ (buildEnumItems
        [("a", { value := some (.vStr "x") }), ("b", { value := some (.vStr "y") })]
        "zzz").countP (fun it => it.selected) ∧
    (buildEnumItems
        [("a", { value := some (.vStr "x") }), ("b", { value := some (.vStr "y") })]
        "zzz").countP (fun it => it.selected) = 1 ∧
    buildEnumItems
        [("a", { value := some (.vStr "x") }), ("b", { value := some (.vStr "y") })]
        "zzz" =
      [{ value := "a", name := "a", description := "", selected := true },
       { value := "b", name := "b", description := "", selected := false }] := by
  have h := claim_C8_amended
    [("a", { value := some (.vStr "x") }), ("b", { value := some (.vStr "y") })]
    "zzz" (List.cons_ne_nil _ _)
  refine ⟨List.cons_ne_nil _ _, h.1, h.2.1 (by decide), ?_⟩
  have h5 := h.2.2.2.2 ("a", { value := some (.vStr "x") })
    [("b", ({ value := some (.vStr "y") } : EnumInfo))] rfl (by decide)
  exact h5

theorem pyDictSet_self {α : Type} {d : List (String × α)} {k : String} {v : α}
    (h : pyGet d k = some v) : pyDictSet d k v = d := by
  induction d with
  | nil => simp [pyGet] at h
  | cons kv rest ih =>
    cases kv with
    | mk k0 v0 =>
      by_cases hk : (k0 == k) = true
      · have hke : k0 = k := by simpa using hk
        have hv : v = v0 := by
          subst hke
          simp [pyGet, List.find?_cons, hk] at h
          · exact h.symm
        subst hke
        subst hv
        simp [pyDictSet, hk]
      · have hk' : (k0 == k) = false := by simpa using hk
        have h' : pyGet rest k = some v := by
          simpa [pyGet, List.find?_cons, hk'] using h
        simp only [pyDictSet, hk', Bool.false_eq_true, if_false]
        rw [ih h']

/-- The condition under which processing one field leaves the `structs`
table untouched: every branch except the inline sub-struct path with a
truthy parent (which extends the referenced struct's field list in place,
`hson_template.py` lines 319-326). -/
def fieldPreservesSchema (structs : Structs) (f : FieldDef) : Bool :=
  if pyLower (resolvedFType f) == "array" ∧ f.subtype.isSome then true
  else if recognizedTypes.contains (pyLower (resolvedFType f)) ∨
      pyContains (resolvedFType f) "::" then true
  else
    match pyGet structs (resolvedFType f) with
    | none => true
    | some sd =>
      match sd.parent with
      | none => true
      | some p => p == ""

theorem fieldWrites_preserves (tmplObj imported : List (String × Value))
    (enums : Enums) (structs : Structs) (f : FieldDef)
    (h : fieldPreservesSchema structs f = true) :
    (fieldWrites tmplObj imported enums structs f).2.2 = structs := by
  simp only [fieldWrites]
  split
  · split
    · rfl
    · split
      · rfl
      · rfl
  next h1 =>
    split
    next h2 => rfl
    next h2 =>
      split
      next sub_sd heq =>
        unfold fieldPreservesSchema at h
        rw [if_neg h1, if_neg h2] at h
        simp only [heq] at h
        obtain ⟨par, flds⟩ := sub_sd
        cases par with
        | none =>
          simp only [inlineParentFields, List.append_nil]
          exact pyDictSet_self heq
        | some p =>
          have hpe : p = "" := by simpa using h
          subst hpe
          simp only [inlineParentFields, if_pos, List.append_nil]
          exact pyDictSet_self heq
      next heq => rfl

theorem applyFields_preserves (tmplObj imported : List (String × Value))
    (enums : Enums) (structs : Structs) (fields : List FieldDef)
    (h : ∀ f ∈ fields, fieldPreservesSchema structs f = true) :
    (applyFields tmplObj imported enums structs fields).structs = structs := by
  unfold applyFields
  suffices hgen : ∀ (fs : List FieldDef) (st : ApplyState), st.structs = structs →
      (∀ f ∈ fs, fieldPreservesSchema structs f = true) →
      (fs.foldl (processOneField tmplObj imported enums) st).structs = structs by
    exact hgen fields _ rfl h
  intro fs
  induction fs with
  | nil => intro st hst _; simpa using hst
  | cons f rest ih =>
    intro st hst hall
    simp only [List.foldl_cons]
    apply ih
    · show (processOneField tmplObj imported enums st f).structs = structs
      unfold processOneField
      rw [hst]
      exact fieldWrites_preserves tmplObj imported enums structs f (hall f (by simp))
    · intro g hg
      exact hall g (by simp [hg])

/-- C9 counterexample: applying a template whose object struct has an
inline sub-struct field referencing a struct with a parent mutates the
loaded schema - the sub-struct's field list is extended in place with the
parent's fields - so the `structs` table after application differs from
the one loaded. -/
theorem claim_C9_counterexample :
    (applyFields [] [] []
      [("Main", { fields := [{ name := "inl", type := "Sub" }] }),
       ("Sub", { parent := some "Par", fields := [{ name := "f0", type := "int" }] }),
       ("Par", { fields := [{ name := "p0", type := "int" }] })]
      [{ name := "inl", type := "Sub" }]).structs ≠
    [("Main", { fields := [{ name := "inl", type := "Sub" }] }),
     ("Sub", { parent := some "Par", fields := [{ name := "f0", type := "int" }] }),
     ("Par", { fields := [{ name := "p0", type := "int" }] })] := by
  decide

/-- C9 amended: template application leaves the `structs` table of the
loaded schema unchanged provided no processed field takes the inline
sub-struct path with a truthy parent; that path extends the referenced
struct's field list in place, so a second application of the same cached
template resolves against the mutated schema.  (The `enums` and `objects`
tables are only ever read.) -/
theorem claim_C9_schema_readonly (tmplObj imported : List (String × Value))
    (enums : Enums) (structs : Structs) (fields : List FieldDef)
    (h : ∀ f ∈ fields, fieldPreservesSchema structs f = true) :
    (applyFields tmplObj imported enums structs fields).structs = structs :=
  applyFields_preserves tmplObj imported enums structs fields h

theorem claim_C9_witness :
    (∀ f ∈ [({ name := "x", type := "float" } : FieldDef)],
      fieldPreservesSchema
        [("Sub", { parent := some "Par",
                   fields := [{ name := "f0", type := "int" }] })] f = true) ∧
    (applyFields [] [] []
      [("Sub", { parent := some "Par", fields := [{ name := "f0", type := "int" }] })]
      [{ name := "x", type := "float" }]).structs =
    [("Sub", { parent := some "Par", fields := [{ name := "f0", type := "int" }] })] := by
  refine ⟨by decide, ?_⟩
  exact claim_C9_schema_readonly [] [] []
    [("Sub", { parent := some "Par", fields := [{ name := "f0", type := "int" }] })]
    [{ name := "x", type := "float" }] (by decide)

/-- C4 counterexample: in a single template application, the
array-of-struct expansion of `arr` (subtype `SubA`, whose parent `ParA`
declares `pa`) writes only `arr0:fa` and not `arr0:pa` - zero levels of
parent merge - while the inline expansion of `inl` (type `SubB`, parent
`ParB`, grandparent `GpB`) writes `inl:gb`, two parent levels up.  Both
contradict the claimed exactly-one-level merge on both paths. -/
theorem claim_C4_counterexample :
    pyGet (applyFields [] [] []
      [("SubA", { parent := some "ParA", fields := [{ name := "fa", type := "int" }] }),
       ("ParA", { fields := [{ name := "pa", type := "int" }] }),
       ("SubB", { parent := some "ParB", fields := [{ name := "fb", type := "int" }] }),
       ("ParB", { parent := some "GpB", fields := [{ name := "pb", type := "int" }] }),
       ("GpB", { fields := [{ name := "gb", type := "int" }] })]
      [{ name := "arr", type := "array", subtype := some "SubA", array_size := some 1 },
       { name := "inl", type := "SubB" }]).types "arr0:fa" = some "int" ∧
    pyGet (applyFields [] [] []
      [("SubA", { parent := some "ParA", fields := [{ name := "fa", type := "int" }] }),
       ("ParA", { fields := [{ name := "pa", type := "int" }] }),
       ("SubB", { parent := some "ParB", fields := [{ name := "fb", type := "int" }] }),
       ("ParB", { parent := some "GpB", fields := [{ name := "pb", type := "int" }] }),
       ("GpB", { fields := [{ name := "gb", type := "int" }] })]
      [{ name := "arr", type := "array", subtype := some "SubA", array_size := some 1 },
       { name := "inl", type := "SubB" }]).types "arr0:pa" = none ∧
    pyGet (applyFields [] [] []
      [("SubA", { parent := some "ParA", fields := [{ name := "fa", type := "int" }] }),
       ("ParA", { fields := [{ name := "pa", type := "int" }] }),
       ("SubB", { parent := some "ParB", fields := [{ name := "fb", type := "int" }] }),
       ("ParB", { parent := some "GpB", fields := [{ name := "pb", type := "int" }] }),
       ("GpB", { fields := [{ name := "gb", type := "int" }] })]
      [{ name := "arr", type := "array", subtype := some "SubA", array_size := some 1 },
       { name := "inl", type := "SubB" }]).types "inl:gb" = some "int" := by
  refine ⟨?_, ?_, ?_⟩ <;> decide

/-- C4 amended: the two sub-struct expansion paths are asymmetric.  The
array-of-struct path iterates only the referenced sub-struct's own
declared fields (no parent merge at all) and leaves the schema unchanged;
the inline sub-struct path iterates the struct's own fields followed by
the full ancestor chain's fields (appended after them by the in-place
extension loop, which has no cycle guard in Python and is bounded here by
the number of declared structs), and it updates the schema in place with
that extended field list. -/
theorem claim_C4_one_level_merge
    (tmplObj imported : List (String × Value)) (enums : Enums) (structs : Structs)
    (f : FieldDef) (sub : String) (sd : StructDef) :
    (((pyLower (resolvedFType f) == "array") = true ∧ f.subtype.isSome = true) →
      f.subtype = some sub →
      arrayPrimitives.contains (pyLower sub) = false →
      pyGet structs sub = some sd →
      ((fieldWrites tmplObj imported enums structs f).2.1.map Prod.fst =
        (List.range (f.array_size.getD 1)).flatMap (fun idx =>
          sd.fields.map (fun sf => f.name ++ toString idx ++ ":" ++ sf.name)) ∧
       (fieldWrites tmplObj imported enums structs f).2.2 = structs)) ∧
    ((¬ ((pyLower (resolvedFType f) == "array") = true ∧ f.subtype.isSome = true)) →
      (¬ (recognizedTypes.contains (pyLower (resolvedFType f)) = true ∨
          pyContains (resolvedFType f) "::" = true)) →
      pyGet structs (resolvedFType f) = some sd →
      ((fieldWrites tmplObj imported enums structs f).2.1.map Prod.fst =
        (sd.fields ++ inlineParentFields structs sd.parent (structs.length + 1)).map
          (fun sf => f.name ++ ":" ++ sf.name) ∧
       (fieldWrites tmplObj imported enums structs f).2.2 =
        pyDictSet structs (resolvedFType f)
          { sd with fields := sd.fields ++
              inlineParentFields structs sd.parent (structs.length + 1) })) := by
  constructor
  · intro h1 hsub hprim hsd
    simp only [fieldWrites]
    rw [if_pos h1, hsub]
    simp only [Option.getD_some]
    rw [if_neg (fun hc => by rw [hprim] at hc; exact Bool.false_ne_true hc), hsd]
    simp only [arrayStructSubWrites, List.map_flatMap, List.map_map]
    constructor
    · rfl
    · trivial
  · intro h1 h2 hsd
    simp only [fieldWrites]
    rw [if_neg h1, if_neg h2, hsd]
    simp only [inlineSubWrites, List.map_map]
    constructor
    · rfl
    · trivial

theorem claim_C4_witness :
    (fieldWrites [] [] []
      [("SubA", { parent := some "ParA", fields := [{ name := "fa", type := "int" }] }),
       ("ParA", { fields := [{ name := "pa", type := "int" }] })]
      { name := "arr", type := "array", subtype := some "SubA",
        array_size := some 1 }).2.1.map Prod.fst = ["arr0:fa"] ∧
    (fieldWrites [] [] []
      [("SubA", { parent := some "ParA", fields := [{ name := "fa", type := "int" }] }),
       ("ParA", { fields := [{ name := "pa", type := "int" }] })]
      { name := "arr", type := "array", subtype := some "SubA",
        array_size := some 1 }).2.2 =
      [("SubA", { parent := some "ParA", fields := [{ name := "fa", type := "int" }] }),
       ("ParA", { fields := [{ name := "pa", type := "int" }] })] ∧
    (fieldWrites [] [] []
      [("SubB", { parent := some "ParB", fields := [{ name := "fb", type := "int" }] }),
       ("ParB", { fields := [{ name := "pb", type := "int" }] })]
      { name := "inl", type := "SubB" }).2.1.map Prod.fst = ["inl:fb", "inl:pb"] ∧
    (fieldWrites [] [] []
      [("SubB", { parent := some "ParB", fields := [{ name := "fb", type := "int" }] }),
       ("ParB", { fields := [{ name := "pb", type := "int" }] })]
      { name := "inl", type := "SubB" }).2.2 =
      pyDictSet
        [("SubB", { parent := some "ParB", fields := [{ name := "fb", type := "int" }] }),
         ("ParB", { fields := [{ name := "pb", type := "int" }] })]
        "SubB"
        { parent := some "ParB",
          fields := [{ name := "fb", type := "int" }, { name := "pb", type := "int" }] } := by
  have ha := (claim_C4_one_level_merge [] [] []
    [("SubA", { parent := some "ParA", fields := [{ name := "fa", type := "int" }] }),
     ("ParA", { fields := [{ name := "pa", type := "int" }] })]
    { name := "arr", type := "array", subtype := some "SubA", array_size := some 1 }
    "SubA" { parent := some "ParA", fields := [{ name := "fa", type := "int" }] }).1
    (by decide) rfl (by decide) (by decide)
  have hb := (claim_C4_one_level_merge [] [] []
    [("SubB", { parent := some "ParB", fields := [{ name := "fb", type := "int" }] }),
     ("ParB", { fields := [{ name := "pb", type := "int" }] })]
    { name := "inl", type := "SubB" }
    "SubB" { parent := some "ParB", fields := [{ name := "fb", type := "int" }] }).2
    (by decide) (by decide) (by decide)
  refine ⟨ha.1.trans (by decide), ha.2, hb.1.trans (by decide), hb.2.trans (by decide)⟩

/-- Python `sep.join(parts)` for single-character separators, on char lists. -/
def joinChar (sep : Char) : List (List Char) → List Char
  | [] => []
  | [x] => x
  | x :: rest => x ++ sep :: joinChar sep rest

/-- Python `s.split(sep)` for a single-character separator, on char lists. -/
def pySplitChar (sep : Char) : List Char → List (List Char)
  | [] => [[]]
  | c :: rest =>
    match pySplitChar sep rest with
    | s :: ss => if c = sep then [] :: s :: ss else (c :: s) :: ss
    | [] => [[c]]

/-- Strip characters satisfying `p` from both ends of a char list
(Python `str.strip` with a character class). -/
def stripBy (p : Char → Bool) (l : List Char) : List Char :=
  ((l.dropWhile p).reverse.dropWhile p).reverse

/-- The bracket class stripped at the ends by `extract_json_segments`
(regex `[\x5b\x5d\x7b\x7d()<>]`). -/
def isBracketChar (c : Char) : Bool :=
  c = '[' || c = ']' || c = '\x7b' || c = '\x7d' || c = '(' || c = ')' ||
    c = '<' || c = '>'

/-- Quote characters stripped by `strip("'\x22")`. -/
def isQuoteChar (c : Char) : Bool :=
  c = '\'' || c = '"'

/-- The character class kept by `re.sub(r"[^0-9a-z_/]", "", s)` (applied
after lowercasing). -/
def keepJsonChar (c : Char) : Bool :=
  c.isDigit || ('a' ≤ c ∧ c ≤ 'z') || c = '_' || c = '/'

/-- `extract_json_segments` from `blendhog_addon.py` (lines 173-183): a
literal list-display form `[a, b, c]` yields its comma-separated tokens
(stripped of whitespace and quotes, lowercased, empties dropped);
otherwise surrounding brackets and quotes are stripped, the string is
lowercased, every character outside `[0-9a-z_/]` is removed, and the
result is split on `/` with empties dropped. -/
def extract_json_segments (raw : String) : List String :=
  let s := stripBy Char.isWhitespace raw.data
  if (s.head? == some '[') ∧ (s.getLast? == some ']') ∧ s.contains ',' then
    let inner := stripBy Char.isWhitespace (s.drop 1).dropLast
    let parts := (pySplitChar ',' inner).map
      (fun seg => stripBy isQuoteChar (stripBy Char.isWhitespace seg))
    (parts.filter (fun p => !p.isEmpty)).map (fun p => String.mk (p.map pyCharLower))
  else
    let s2 := stripBy isQuoteChar (stripBy isBracketChar s)
    let s3 := (s2.map pyCharLower).filter keepJsonChar
    ((pySplitChar '/' s3).filter (fun p => !p.isEmpty)).map String.mk

/-- `normalize_segment` from `blendhog_addon.py` (lines 185-187): lowercase
and keep only `[0-9a-z]` - coarser than `extract_json_segments` (drops
underscores too). -/
def normalize_segment (seg : String) : String :=
  String.mk ((seg.data.map pyCharLower).filter
    (fun c => c.isDigit || ('a' ≤ c ∧ c ≤ 'z')))

/-- `strip_hson_type` from `blendhog_addon.py` (lines 165-171): drop a
trailing `:type` suffix when it is one of the five recognized tags, then
lowercase and strip. -/
def strip_hson_type (raw : String) : String :=
  let parts := pySplitChar ':' raw.data
  let lastLower := String.mk ((parts.getLastD []).map pyCharLower)
  let base : List Char :=
    if parts.length > 1 ∧ ["float", "int", "string", "bool", "list"].contains lastLower
    then joinChar ':' parts.dropLast
    else raw.data
  String.mk (stripBy Char.isWhitespace (base.map pyCharLower))

/-- `match_segment` from `blendhog_addon.py` (lines 189-197): the
`:`-split, normalized parts of the base must occur as a contiguous run in
the normalized segment list. -/
def match_segment (base_h : String) (segs : List String) : Bool :=
  let base_parts := (pySplitChar ':' base_h.data).map
    (fun p => normalize_segment (String.mk p))
  let segs_norm := segs.map normalize_segment
  (List.range (segs_norm.length - base_parts.length + 1)).any
    (fun i => (segs_norm.drop i).take base_parts.length == base_parts)

/-- `match_alias_candidate` from `blendhog_addon.py` (lines 199-209): a
single-segment alias matches a typed leaf `[base, primitive-tag]`;
otherwise (and also when the typed-leaf test fails) the candidate matches
when every candidate segment occurs somewhere in the target's segment
list (the order-independent superset rule). -/
def match_alias_candidate (jname : String) (candidate : String) : Bool :=
  let cand_segs := extract_json_segments candidate
  if cand_segs.isEmpty then false
  else
    let j_segs := extract_json_segments jname
    if cand_segs.length == 1 ∧ j_segs.length == 2 ∧
        j_segs.getD 0 "" == cand_segs.getD 0 "" ∧
        ["float", "int", "bool", "string"].contains (j_segs.getD 1 "")
    then true
    else cand_segs.all (fun c => j_segs.contains c)

/-- A parameter item (an `hson_parameters` or `json_parameters` entry).
Blender property-group items expose every typed slot, so the `hasattr`
probes in the transfer code are always true; a `list_value` element is
modelled by its `liststring` field, the only one the matcher reads. -/
structure PItem where
  name : String
  float_value : Rat := 0
  int_value : Int := 0
  bool_value : Bool := false
  string_value : String := ""
  list_value : List String := []
  enum_items : List EnumItemR := []
deriving DecidableEq, Repr, Inhabited

/-- `infer_type_from_hson` from `blendhog_addon.py` (lines 211-222): with
every attribute present, the answer is `enum` for a nonempty
`enum_items`, else `float` (the `float_value` probe). -/
def infer_type_from_hson (h : PItem) : String :=
  if h.enum_items.length ≠ 0 then "enum" else "float"

/-- `copy_value_by_type` from `blendhog_addon.py` (lines 224-261); `none`
models the `ValueError` raised on an unknown type tag.  The enum branch
copies selection flags pairwise by position (`zip`), then mirrors the
first selected option's value into `string_value`. -/
def copy_value_by_type (h j : PItem) (dt : String) : Option PItem :=
  if dt == "float" then some { j with float_value := h.float_value }
  else if dt == "int" then some { j with int_value := h.int_value }
  else if dt == "bool" then some { j with bool_value := h.bool_value }
  else if dt == "string" then
    some { j with string_value :=
      match h.list_value with
      | s :: _ => s
      | [] => h.string_value }
  else if dt == "list" then
    some { j with list_value := h.list_value }
  else if dt == "enum" then
    let je := (h.enum_items.zip j.enum_items).map
        (fun pz => { pz.2 with selected := pz.1.selected }) ++
      j.enum_items.drop h.enum_items.length
    match je.find? (fun e => e.selected) with
    | some sel => some { j with enum_items := je, string_value := sel.value }
    | none => some { j with enum_items := je }
  else none

/-- Select the first option whose value matches case-insensitively
(the `break` in the matching loop of `transfer_enum_value`). -/
def selectFirstValue : List EnumItemR → String → List EnumItemR
  | [], _ => []
  | e :: rest, sv =>
    if pyLower e.value == pyLower sv then { e with selected := true } :: rest
    else e :: selectFirstValue rest sv

/-- `transfer_enum_value` from `blendhog_addon.py` (lines 281-315): find
the source's first selected option, clear every target selection, select
the first target option whose value matches case-insensitively, and write
the source value into the target's `string_value` (the
`_force_update_enum_selection` side call only re-clears already-cleared
flags and writes a value that is immediately overwritten). -/
def transfer_enum_value (h j : PItem) : PItem :=
  if h.enum_items.length > 0 then
    let j1 := { j with enum_items := j.enum_items.map (fun e => { e with selected := false }) }
    match h.enum_items.find? (fun e => e.selected) with
    | none => j1
    | some e =>
      { j1 with enum_items := selectFirstValue j1.enum_items e.value,
                string_value := e.value }
  else j

/-- Python `"/".join(segs)`. -/
def joinSlash : List String → String
  | [] => ""
  | [s] => s
  | s :: rest => s ++ "/" ++ joinSlash rest

/-- The alias fallback of `OBJECT_OT_universal_parameter_transfer.execute`
(lines 340-344): try each alias candidate in declaration order, stopping
at the first candidate with at least one matching target. -/
def aliasRounds (jsonList : List PItem) : List String → List Nat
  | [] => []
  | cand :: rest =>
    let r := (List.range jsonList.length).filter
      (fun i => match_alias_candidate ((jsonList.getD i default).name) cand)
    if r.isEmpty then aliasRounds jsonList rest else r

/-- The matched target indices for one source item (`execute`, lines
337-344): direct contiguous-run matches against the precomputed segment
lists, then the alias table when there was no direct match. -/
def sourceMatches (aliases : List (String × List String)) (jsonList : List PItem)
    (jsonSegs : List (List String)) (h : PItem) : List Nat :=
  let base_h := strip_hson_type h.name
  let direct := (List.range jsonList.length).filter
    (fun i => match_segment base_h (jsonSegs.getD i []))
  if direct.isEmpty ∧ pyHasKey aliases base_h then
    aliasRounds jsonList ((pyGet aliases base_h).getD [])
  else direct

/-- The per-match loop of `execute` (lines 348-376): skip matches whose
slash-joined path is excluded, choose the copy type from the trailing
segment or by inference, and copy.  Returns the updated target list and
the two flags recording whether the source was added to `transferred`
and `not_transferred`. -/
def excludedSkipLoop (excluded : List String) (h : PItem) :
    List Nat → List PItem → Bool → Bool → List PItem × Bool × Bool
  | [], cur, t, nt => (cur, t, nt)
  | i :: restIdx, cur, t, nt =>
    let j := cur.getD i default
    let segs := extract_json_segments j.name
    let full_path := joinSlash segs
    if excluded.contains full_path then
      excludedSkipLoop excluded h restIdx cur t nt
    else
      let dt :=
        if segs ≠ [] ∧ ["float", "int", "string", "bool", "list"].contains (segs.getLastD "")
        then segs.getLastD ""
        else infer_type_from_hson h
      if dt == "" then excludedSkipLoop excluded h restIdx cur t true
      else if dt == "enum" then
        excludedSkipLoop excluded h restIdx (cur.set i (transfer_enum_value h j)) true nt
      else
        match copy_value_by_type h j dt with
        | some j' => excludedSkipLoop excluded h restIdx (cur.set i j') true nt
        | none => excludedSkipLoop excluded h restIdx cur t true

/-- Processing of one source item in `execute` (lines 335-376): no match
at all records the item as not-transferred; otherwise each matched target
runs through the exclusion/copy loop. -/
def processSource (aliases : List (String × List String)) (excluded : List String)
    (jsonList : List PItem) (jsonSegs : List (List String)) (h : PItem) :
    List PItem × Bool × Bool :=
  let mi := sourceMatches aliases jsonList jsonSegs h
  if mi.isEmpty then (jsonList, false, true)
  else excludedSkipLoop excluded h mi jsonList false false

/-- One source item processed against targets with segments computed the
way `execute` precomputes `json_with_segs`. -/
def transferSourceStep (aliases : List (String × List String)) (excluded : List String)
    (jsonList : List PItem) (h : PItem) : List PItem × Bool × Bool :=
  processSource aliases excluded jsonList
    (jsonList.map (fun j => extract_json_segments j.name)) h

theorem excludedSkipLoop_skip_all (excluded : List String) (h : PItem) :
    ∀ (idxs : List Nat) (cur : List PItem) (t nt : Bool),
      (∀ i ∈ idxs, excluded.contains
        (joinSlash (extract_json_segments ((cur.getD i default).name))) = true) →
      excludedSkipLoop excluded h idxs cur t nt = (cur, t, nt) := by
  intro idxs
  induction idxs with
  | nil => intro cur t nt _; rfl
  | cons i0 rest ih =>
    intro cur t nt hall
    rw [excludedSkipLoop]
    rw [if_pos (hall i0 (by simp))]
    exact ih cur t nt (fun i hi => hall i (by simp [hi]))

theorem excludedSkipLoop_excluded_unchanged (excluded : List String) (h : PItem) :
    ∀ (idxs : List Nat) (cur : List PItem) (t nt : Bool) (i : Nat),
      excluded.contains
        (joinSlash (extract_json_segments ((cur.getD i default).name))) = true →
      ((excludedSkipLoop excluded h idxs cur t nt).1.getD i default) =
        cur.getD i default := by
  intro idxs
  induction idxs with
  | nil => intro cur t nt i _; rfl
  | cons i0 rest ih =>
    intro cur t nt i hexi
    rw [excludedSkipLoop]
    by_cases hx : excluded.contains
        (joinSlash (extract_json_segments ((cur.getD i0 default).name))) = true
    · rw [if_pos hx]
      exact ih cur t nt i hexi
    · rw [if_neg hx]
      have hne : i0 ≠ i := by
        intro heq
        subst heq
        exact hx hexi
      have hset : ∀ (j' : PItem), ((cur.set i0 j').getD i default) = cur.getD i default := by
        intro j'
        simp [List.getD_eq_getElem?_getD, List.getElem?_set_ne hne]
      by_cases hdt : (if (extract_json_segments ((cur.getD i0 default).name)) ≠ [] ∧
          ["float", "int", "string", "bool", "list"].contains
            ((extract_json_segments ((cur.getD i0 default).name)).getLastD "")
          then (extract_json_segments ((cur.getD i0 default).name)).getLastD ""
          else infer_type_from_hson h) == ""
      · rw [if_pos hdt]
        exact ih cur t true i hexi
      · rw [if_neg hdt]
        by_cases henum : (if (extract_json_segments ((cur.getD i0 default).name)) ≠ [] ∧
            ["float", "int", "string", "bool", "list"].contains
              ((extract_json_segments ((cur.getD i0 default).name)).getLastD "")
            then (extract_json_segments ((cur.getD i0 default).name)).getLastD ""
            else infer_type_from_hson h) == "enum"
        · rw [if_pos henum]
          have hstep := ih (cur.set i0 (transfer_enum_value h (cur.getD i0 default)))
            true nt i (by rw [hset]; exact hexi)
          rw [hstep, hset]
        · rw [if_neg henum]
          cases hc : copy_value_by_type h (cur.getD i0 default)
              (if (extract_json_segments ((cur.getD i0 default).name)) ≠ [] ∧
                ["float", "int", "string", "bool", "list"].contains
                  ((extract_json_segments ((cur.getD i0 default).name)).getLastD "")
                then (extract_json_segments ((cur.getD i0 default).name)).getLastD ""
                else infer_type_from_hson h) with
          | some j' =>
            have hstep := ih (cur.set i0 j') true nt i (by rw [hset]; exact hexi)
            rw [hstep, hset]
          | none =>
            exact ih cur t true i hexi

/-- C6: with source field `Speed:float`, alias table mapping `speed` to
`[velocity/value]`, and the target parameter `velocity/value/float`
(segments `[velocity, value, float]`), the multi-segment alias
`[velocity, value]` is recognized by the superset rule of
`match_alias_candidate`, and the transfer step copies the float value onto
that target, recording the source as transferred. -/
theorem claim_C6_alias_superset_transfer :
    match_alias_candidate "velocity/value/float" "velocity/value" = true ∧
    extract_json_segments "velocity/value/float" = ["velocity", "value", "float"] ∧
    transferSourceStep [("speed", ["velocity/value"])] []
      [{ name := "velocity/value/float" }]
      { name := "Speed:float", float_value := 7 } =
      ([{ name := "velocity/value/float", float_value := 7 }], true, false) := by
  refine ⟨by decide, by decide, by decide⟩

/-- C7: during transfer, a matched target parameter whose slash-joined
segment path is in the exclusion list is skipped - it is left exactly as
it was - and a source item all of whose matches are excluded is recorded
in neither the transferred nor the not-transferred set (both flags
false), with the whole target list unchanged. -/
theorem claim_C7_exclusion_skipped (aliases : List (String × List String))
    (excluded : List String) (jsonList : List PItem) (h : PItem)
    (hne : sourceMatches aliases jsonList
      (jsonList.map (fun j => extract_json_segments j.name)) h ≠ [])
    (hall : ∀ i ∈ sourceMatches aliases jsonList
      (jsonList.map (fun j => extract_json_segments j.name)) h,
      excluded.contains
        (joinSlash (extract_json_segments ((jsonList.getD i default).name))) = true) :
    (∀ i, excluded.contains
        (joinSlash (extract_json_segments ((jsonList.getD i default).name))) = true →
      ((transferSourceStep aliases excluded jsonList h).1.getD i default) =
        jsonList.getD i default) ∧
    transferSourceStep aliases excluded jsonList h = (jsonList, false, false) := by
  unfold transferSourceStep processSource
  have hne' : ¬ (sourceMatches aliases jsonList
      (jsonList.map (fun j => extract_json_segments j.name)) h).isEmpty = true := by
    simpa [List.isEmpty_iff] using hne
  rw [if_neg hne']
  constructor
  · intro i hexi
    exact excludedSkipLoop_excluded_unchanged excluded h _ jsonList false false i hexi
  · exact excludedSkipLoop_skip_all excluded h _ jsonList false false hall

theorem claim_C7_witness :
    sourceMatches [("speed", ["velocity/value"])] [{ name := "velocity/value/float" }]
      ([({ name := "velocity/value/float" } : PItem)].map
        (fun j => extract_json_segments j.name))
      { name := "Speed:float", float_value := 7 } ≠ [] ∧
    transferSourceStep [("speed", ["velocity/value"])] ["velocity/value/float"]
      [{ name := "velocity/value/float" }]
      { name := "Speed:float", float_value := 7 } =
      ([{ name := "velocity/value/float" }], false, false) := by
  have hmain := claim_C7_exclusion_skipped [("speed", ["velocity/value"])]
    ["velocity/value/float"] [{ name := "velocity/value/float" }]
    { name := "Speed:float", float_value := 7 }
    (by decide) (by decide)
  exact ⟨by decide, hmain.2⟩

/-- Keys of the nested parameter trees handled by `nest_parameters` and
`flatten_dict`, as character lists (Python strings). -/
abbrev Str := List Char

/-- `d.get(k)` for a dict keyed by `Str`. -/
def jGet {α : Type} (d : List (Str × α)) (k : Str) : Option α :=
  (d.find? (fun kv => kv.1 == k)).map Prod.snd

/-- `d[k] = v` for a dict keyed by `Str` (replace in place or append). -/
def jSet {α : Type} : List (Str × α) → Str → α → List (Str × α)
  | [], k, v => [(k, v)]
  | (k', v') :: rest, k, v =>
    if k' == k then (k, v) :: rest else (k', v') :: jSet rest k v

/-- A JSON-ish tree value: a scalar leaf (the payload type `α` is opaque
to both functions), a list, or a dict of labelled children. -/
inductive JVal (α : Type) where
  | leaf : α → JVal α
  | jlist : List (JVal α) → JVal α
  | jdict : List (Str × JVal α) → JVal α

instance {α : Type} [Inhabited α] : Inhabited (JVal α) := ⟨JVal.jdict []⟩

/-- The regex `^([a-zA-Z_]+)(\d+)$` of `nest_parameters`: a nonempty run
of ASCII letters or underscores followed by a nonempty run of digits;
returns the base name and the parsed index.  (Python `\d` also matches
non-ASCII decimal digits; such keys are outside this model.) -/
def matchIndexPart (part : Str) : Option (Str × Nat) :=
  let base := part.takeWhile (fun c => c.isAlpha || c = '_')
  let rest := part.dropWhile (fun c => c.isAlpha || c = '_')
  if base ≠ [] ∧ rest ≠ [] ∧ rest.all Char.isDigit then
    some (base, rest.foldl (fun n c => n * 10 + (c.toNat - 48)) 0)
  else none

/-- `while len(current) <= idx: current.append(\x7b\x7d)`: pad a list with
empty dicts up to length `idx + 1`. -/
def padTo {α : Type} (l : List (JVal α)) (idx : Nat) : List (JVal α) :=
  l ++ List.replicate (idx + 1 - l.length) (JVal.jdict [])

/-- One key's insertion walk of `nest_parameters` (`hson_template.py`
lines 36-57), as a pure recursion over the split key parts with explicit
write-back.  `Except` tracks Python exceptions: descending into a
non-dict value raises `TypeError` before any further mutation, and the
surrounding `try` returns the tree mutated so far - the `error` payload
carries exactly that partially-updated tree. -/
def insJ {α : Type} : JVal α → List Str → JVal α → Except (JVal α) (JVal α)
  | cur, [], _ => .ok cur
  | cur, part :: rest, v =>
    match cur with
    | .jdict d =>
      match matchIndexPart part with
      | some (base, idx) =>
        let l0 :=
          match jGet d base with
          | some (.jlist l) => l
          | _ => []
        let l1 := padTo l0 idx
        if rest.isEmpty then
          .ok (.jdict (jSet d base (.jlist (l1.set idx v))))
        else
          match insJ (l1.getD idx (.jdict [])) rest v with
          | .ok c => .ok (.jdict (jSet d base (.jlist (l1.set idx c))))
          | .error c => .error (.jdict (jSet d base (.jlist (l1.set idx c))))
      | none =>
        if rest.isEmpty then
          .ok (.jdict (jSet d part v))
        else
          let child :=
            match jGet d part with
            | some (.jdict d0) => JVal.jdict d0
            | _ => JVal.jdict ([] : List (Str × JVal α))
          match insJ child rest v with
          | .ok c => .ok (.jdict (jSet d part c))
          | .error c => .error (.jdict (jSet d part c))
    | _ => .error cur

/-- The key loop of `nest_parameters` over pre-split keys: fold each
insertion into the accumulated tree; an exception aborts the loop and the
partially-mutated tree is returned (the function's `except` clause). -/
def nestGoParts {α : Type} : List (List Str × JVal α) → List (Str × JVal α) →
    List (Str × JVal α)
  | [], acc => acc
  | (parts, v) :: rest, acc =>
    match insJ (JVal.jdict acc) parts v with
    | .ok (.jdict acc') => nestGoParts rest acc'
    | .error (.jdict acc') => acc'
    | .ok _ => acc
    | .error _ => acc

/-- `nest_parameters` from `hson_template.py` (lines 32-60): fold every
flat key (split on `:`) into a nested tree of dicts and lists, treating a
trailing-digits part as a list index. -/
def nest_parameters {α : Type} (flat : List (Str × JVal α)) : List (Str × JVal α) :=
  nestGoParts (flat.map (fun kv => (pySplitChar ':' kv.1, kv.2))) []

mutual
/-- One value of the `flatten_dict` loop body (`hson_module.py` lines
75-80): a dict value recurses with the `:`-joined prefix and is merged by
`items.update(...)`; any other value is written directly. -/
def flatV {α : Type} : JVal α → Str → List (Str × JVal α) → List (Str × JVal α)
  | .jdict sub, nk, items =>
    (flat_go sub nk []).foldl (fun a kv => jSet a kv.1 kv.2) items
  | v, nk, items => jSet items nk v

/-- The accumulator loop of `flatten_dict` (`hson_module.py` lines 73-81):
`items` starts empty and each entry is folded in by `flatV` under the
`:`-extended key. -/
def flat_go {α : Type} : List (Str × JVal α) → Str → List (Str × JVal α) →
    List (Str × JVal α)
  | [], _, items => items
  | (k, v) :: rest, parent, items =>
    flat_go rest parent (flatV v (if parent = [] then k else parent ++ ':' :: k) items)
end

/-- `flatten_dict` from `hson_module.py` (lines 73-81). -/
def flatten_dict {α : Type} (d : List (Str × JVal α)) (parent_key : Str) :
    List (Str × JVal α) :=
  flat_go d parent_key []

/-- The `:`-joined child key (`f"{parent_key}{sep}{k}" if parent_key else k`). -/
def nkey (parent k : Str) : Str :=
  if parent = [] then k else parent ++ ':' :: k

/-- A key that round-trips: nonempty, without `:` (so flattening does not
merge it into deeper paths), and not of the letters-then-digits shape that
`nest_parameters` reinterprets as an array index. -/
def goodKey (k : Str) : Bool :=
  !k.isEmpty && !(k.contains ':') && (matchIndexPart k).isNone

/-- No duplicate keys (a Python dict cannot hold any). -/
def distinctKeys : List Str → Bool
  | [] => true
  | k :: rest => !(rest.contains k) && distinctKeys rest

mutual
/-- A tree value that round-trips: leaves and lists are unconstrained
(both are opaque to `flatten_dict`), a sub-dict must be nonempty (an
empty one is dropped by flattening), have distinct good keys, and good
children. -/
def goodVal {α : Type} : JVal α → Bool
  | .leaf _ => true
  | .jlist _ => true
  | .jdict entries =>
    !entries.isEmpty && distinctKeys (entries.map Prod.fst) && goodEntries entries

/-- Every entry has a good key and a good value. -/
def goodEntries {α : Type} : List (Str × JVal α) → Bool
  | [] => true
  | (k, v) :: rest => goodKey k && goodVal v && goodEntries rest
end

/-- A good top-level tree: distinct good keys and good children (the top
dict itself may be empty). -/
def goodDict {α : Type} (d : List (Str × JVal α)) : Bool :=
  distinctKeys (d.map Prod.fst) && goodEntries d

mutual
/-- Ideal flattening of one value to part-list-keyed entries. -/
def flatPartsV {α : Type} : JVal α → List Str → List (List Str × JVal α)
  | .jdict sub, pk => flatPartsF sub pk
  | v, pk => [(pk, v)]

/-- Ideal flattening of a dict to part-list-keyed entries: the flat keys
as split part lists, in flattening order, with no dict-update collapsing
(none occurs on good trees). -/
def flatPartsF {α : Type} : List (Str × JVal α) → List Str → List (List Str × JVal α)
  | [], _ => []
  | (k, v) :: rest, p => flatPartsV v (p ++ [k]) ++ flatPartsF rest p
end

mutual
/-- String-keyed ideal flattening of one value. -/
def flatSV {α : Type} : JVal α → Str → List (Str × JVal α)
  | .jdict sub, nk => flatS sub nk
  | v, nk => [(nk, v)]

/-- String-keyed ideal flattening of a dict: `flat_go` without the
accumulator (they agree on good trees, where no keys collide). -/
def flatS {α : Type} : List (Str × JVal α) → Str → List (Str × JVal α)
  | [], _ => []
  | (k, v) :: rest, p => flatSV v (nkey p k) ++ flatS rest p
end

/-- The child dict that a plain non-final part descends into: the existing
dict at the key, or a fresh empty one. -/
def childDict {α : Type} (d : List (Str × JVal α)) (p : Str) : List (Str × JVal α) :=
  match jGet d p with
  | some (.jdict d0) => d0
  | _ => []

theorem entriesRec {α : Type} {motive : List (Str × JVal α) → Prop}
    (hnil : motive [])
    (hcons : ∀ (k : Str) (v : JVal α) (rest : List (Str × JVal α)),
      motive rest → (∀ sub, v = JVal.jdict sub → motive sub) →
      motive ((k, v) :: rest)) :
    ∀ d, motive d := by
  suffices hfuel : ∀ (n : Nat) (d : List (Str × JVal α)), sizeOf d ≤ n → motive d by
    exact fun d => hfuel (sizeOf d) d le_rfl
  intro n
  induction n with
  | zero =>
    intro d hle
    cases d with
    | nil => exact hnil
    | cons kv rest => simp at hle
  | succ n ih =>
    intro d hle
    cases d with
    | nil => exact hnil
    | cons kv rest =>
      obtain ⟨k, v⟩ := kv
      apply hcons
      · apply ih
        simp at hle ⊢
        omega
      · intro sub hv
        subst hv
        apply ih
        simp at hle ⊢
        omega

theorem pySplitChar_ne_nil (c : Char) (l : Str) : pySplitChar c l ≠ [] := by
  induction l with
  | nil => simp [pySplitChar]
  | cons a rest ih =>
    simp only [pySplitChar]
    cases hs : pySplitChar c rest with
    | nil => exact absurd hs ih
    | cons s ss =>
      by_cases hac : a = c
      · simp [hac]
      · simp [hac]

theorem pySplitChar_no_sep {c : Char} {l : Str} (h : c ∉ l) :
    pySplitChar c l = [l] := by
  induction l with
  | nil => rfl
  | cons a rest ih =>
    have hac : ¬ a = c := fun he => h (by simp [he.symm])
    have hrest : c ∉ rest := fun hm => h (by simp [hm])
    simp only [pySplitChar, ih hrest]
    simp [hac]

theorem pySplitChar_append (c : Char) (a b : Str) :
    pySplitChar c (a ++ c :: b) = pySplitChar c a ++ pySplitChar c b := by
  induction a with
  | nil =>
    simp only [List.nil_append, pySplitChar]
    rcases List.exists_cons_of_ne_nil (pySplitChar_ne_nil c b) with ⟨s, ss, hb⟩
    rw [hb]
    simp
  | cons x a' ih =>
    simp only [List.cons_append, pySplitChar, List.append_eq]
    rw [ih]
    rcases List.exists_cons_of_ne_nil (pySplitChar_ne_nil c a') with ⟨h', t', ha⟩
    rw [ha]
    by_cases hxc : x = c
    · simp [hxc]
    · simp [hxc]

theorem joinChar_ne_nil {P : List Str} (hP : P ≠ [])
    (hparts : ∀ p ∈ P, p ≠ []) : joinChar ':' P ≠ [] := by
  cases P with
  | nil => exact absurd rfl hP
  | cons p rest =>
    cases rest with
    | nil => simpa [joinChar] using hparts p (by simp)
    | cons q rest' => simp [joinChar]

theorem joinChar_append_single (P : List Str) (k : Str)
    (hparts : ∀ p ∈ P, p ≠ []) :
    joinChar ':' (P ++ [k]) = nkey (joinChar ':' P) k := by
  induction P with
  | nil => simp [joinChar, nkey]
  | cons p rest ih =>
    cases rest with
    | nil =>
      have hp : p ≠ [] := hparts p (by simp)
      simp [joinChar, nkey, hp]
    | cons q rest' =>
      have hrest : ∀ x ∈ q :: rest', x ≠ [] := by
        intro x hx
        exact hparts x (by simp [hx])
      have hq := ih hrest
      rw [List.cons_append] at hq
      simp only [List.cons_append, joinChar, List.append_eq]
      rw [hq]
      have hjoin_ne : joinChar ':' (q :: rest') ≠ [] :=
        joinChar_ne_nil (by simp) hrest
      have h1 : nkey (joinChar ':' (q :: rest')) k =
          joinChar ':' (q :: rest') ++ ':' :: k := by
        simp only [nkey]
        rw [if_neg hjoin_ne]
      have h2 : nkey (p ++ ':' :: joinChar ':' (q :: rest')) k =
          (p ++ ':' :: joinChar ':' (q :: rest')) ++ ':' :: k := by
        simp only [nkey]
        rw [if_neg (by simp)]
      rw [h1, h2]
      simp

theorem pySplitChar_joinChar {P : List Str} (hP : P ≠ [])
    (hparts : ∀ p ∈ P, p ≠ [] ∧ ':' ∉ p) :
    pySplitChar ':' (joinChar ':' P) = P := by
  induction P with
  | nil => exact absurd rfl hP
  | cons p rest ih =>
    cases rest with
    | nil =>
      simp only [joinChar]
      exact pySplitChar_no_sep (hparts p (by simp)).2
    | cons q rest' =>
      have hrest : ∀ x ∈ q :: rest', x ≠ [] ∧ ':' ∉ x := by
        intro x hx
        exact hparts x (by simp [hx])
      simp only [joinChar]
      rw [pySplitChar_append, pySplitChar_no_sep (hparts p (by simp)).2]
      rw [ih (by simp) hrest]
      rfl

theorem pySplitChar_nkey {P : List Str} {k : Str}
    (hparts : ∀ p ∈ P, p ≠ [] ∧ ':' ∉ p) (hk : ':' ∉ k) :
    pySplitChar ':' (nkey (joinChar ':' P) k) = P ++ [k] := by
  cases hP : P with
  | nil =>
    have hn : nkey (joinChar ':' ([] : List Str)) k = k := by
      simp [nkey, joinChar]
    rw [hn, pySplitChar_no_sep hk]
    rfl
  | cons p rest =>
    rw [← hP]
    have hP' : P ≠ [] := by rw [hP]; simp
    have hjoin_ne : joinChar ':' P ≠ [] :=
      joinChar_ne_nil hP' (fun x hx => (hparts x hx).1)
    simp only [nkey]
    rw [if_neg hjoin_ne, pySplitChar_append,
      pySplitChar_joinChar hP' hparts, pySplitChar_no_sep hk]

theorem jGet_jSet_same {α : Type} (d : List (Str × α)) (k : Str) (v : α) :
    jGet (jSet d k v) k = some v := by
  induction d with
  | nil => simp [jGet, jSet]
  | cons kv rest ih =>
    obtain ⟨k', v'⟩ := kv
    by_cases h : k' = k
    · simp [jSet, h, jGet]
    · have hbeq : (k' == k) = false := by
        rw [beq_eq_false_iff_ne]
        exact h
      simp only [jSet, hbeq, Bool.false_eq_true, if_false]
      simp only [jGet, List.find?_cons, hbeq] at ih ⊢
      exact ih

theorem jSet_jSet_same {α : Type} (d : List (Str × α)) (k : Str) (v w : α) :
    jSet (jSet d k v) k w = jSet d k w := by
  induction d with
  | nil => simp [jSet]
  | cons kv rest ih =>
    obtain ⟨k', v'⟩ := kv
    by_cases h : k' = k
    · simp [jSet, h]
    · simp [jSet, h, ih]

theorem jSet_append_of_none {α : Type} {d : List (Str × α)} {k : Str}
    (v : α) (h : jGet d k = none) : jSet d k v = d ++ [(k, v)] := by
  induction d with
  | nil => rfl
  | cons kv rest ih =>
    obtain ⟨k', v'⟩ := kv
    by_cases hk : k' = k
    · subst hk
      simp only [jGet, List.find?_cons, beq_self_eq_true] at h
      simp at h
    · have hbeq : (k' == k) = false := by
        rw [beq_eq_false_iff_ne]
        exact hk
      have h' : jGet rest k = none := by
        simp only [jGet, List.find?_cons, hbeq] at h
        exact h
      simp [jSet, hk, ih h']

theorem jGet_append {α : Type} (a b : List (Str × α)) (k : Str) :
    jGet (a ++ b) k = (jGet a k).or (jGet b k) := by
  simp only [jGet, List.find?_append]
  cases hf : a.find? (fun kv => kv.1 == k) with
  | some w => simp [Option.or]
  | none => simp [Option.or]

theorem jGet_single_other {α : Type} {k k' : Str} (v : α) (h : k' ≠ k) :
    jGet [(k, v)] k' = none := by
  have hbeq : (k == k') = false := by
    rw [beq_eq_false_iff_ne]
    exact fun he => h he.symm
  simp only [jGet, List.find?_cons, hbeq, List.find?_nil]
  rfl

theorem childDict_of_none {α : Type} {d : List (Str × JVal α)} {p : Str}
    (h : jGet d p = none) : childDict d p = [] := by
  simp [childDict, h]

theorem childDict_jSet_same {α : Type} (d : List (Str × JVal α)) (p : Str)
    (c : List (Str × JVal α)) :
    childDict (jSet d p (JVal.jdict c)) p = c := by
  simp [childDict, jGet_jSet_same]

theorem insJ_single {α : Type} {p : Str} (hp : matchIndexPart p = none)
    (d : List (Str × JVal α)) (v : JVal α) :
    insJ (JVal.jdict d) [p] v = .ok (JVal.jdict (jSet d p v)) := by
  simp [insJ, hp]

theorem insJ_descend {α : Type} {p : Str} (hp : matchIndexPart p = none)
    (d : List (Str × JVal α)) (q : Str) (qs : List Str) (v : JVal α) :
    insJ (JVal.jdict d) (p :: q :: qs) v =
      match insJ (JVal.jdict (childDict d p)) (q :: qs) v with
      | .ok c => .ok (JVal.jdict (jSet d p c))
      | .error c => .error (JVal.jdict (jSet d p c)) := by
  have hchild : (match jGet d p with
      | some (JVal.jdict d0) => JVal.jdict d0
      | _ => JVal.jdict ([] : List (Str × JVal α))) = JVal.jdict (childDict d p) := by
    unfold childDict
    cases hg : jGet d p with
    | none => rfl
    | some x => cases x <;> rfl
  simp only [insJ, hp, List.isEmpty_cons, Bool.false_eq_true, if_false]
  rw [hchild]

theorem insJ_plain_ok {α : Type} :
    ∀ (parts : List Str) (d : List (Str × JVal α)) (v : JVal α),
      parts ≠ [] → (∀ p ∈ parts, matchIndexPart p = none) →
      ∃ c, insJ (JVal.jdict d) parts v = .ok (JVal.jdict c) := by
  intro parts
  induction parts with
  | nil =>
    intro d v h _
    exact absurd rfl h
  | cons p qs ih =>
    intro d v _ hplain
    have hp : matchIndexPart p = none := hplain p (by simp)
    cases qs with
    | nil => exact ⟨jSet d p v, insJ_single hp d v⟩
    | cons q qs' =>
      obtain ⟨c, hc⟩ :=
        ih (childDict d p) v (by simp) (fun x hx => hplain x (by simp [hx]))
      refine ⟨jSet d p (JVal.jdict c), ?_⟩
      rw [insJ_descend hp, hc]

theorem nestGoParts_cons_ok {α : Type} {parts : List Str} {v : JVal α}
    {acc c : List (Str × JVal α)}
    (h : insJ (JVal.jdict acc) parts v = .ok (JVal.jdict c))
    (L : List (List Str × JVal α)) :
    nestGoParts ((parts, v) :: L) acc = nestGoParts L c := by
  simp [nestGoParts, h]

theorem nestGoParts_append_plain {α : Type} :
    ∀ (A B : List (List Str × JVal α)) (acc : List (Str × JVal α)),
      (∀ e ∈ A, e.1 ≠ [] ∧ ∀ q ∈ e.1, matchIndexPart q = none) →
      nestGoParts (A ++ B) acc = nestGoParts B (nestGoParts A acc) := by
  intro A
  induction A with
  | nil =>
    intro B acc _
    rfl
  | cons e A' ih =>
    intro B acc hA
    obtain ⟨parts, v⟩ := e
    obtain ⟨hne, hplain⟩ := hA (parts, v) (by simp)
    obtain ⟨c, hc⟩ := insJ_plain_ok parts acc v hne hplain
    rw [List.cons_append, nestGoParts_cons_ok hc, nestGoParts_cons_ok hc,
      ih _ _ (fun x hx => hA x (by simp [hx]))]

theorem nestGoParts_descend {α : Type} {p : Str} (hp : matchIndexPart p = none) :
    ∀ (L : List (List Str × JVal α)) (acc : List (Str × JVal α)), L ≠ [] →
      (∀ e ∈ L, e.1 ≠ [] ∧ ∀ q ∈ e.1, matchIndexPart q = none) →
      nestGoParts (L.map (fun e => (p :: e.1, e.2))) acc =
        jSet acc p (JVal.jdict (nestGoParts L (childDict acc p))) := by
  intro L
  induction L with
  | nil =>
    intro acc h _
    exact absurd rfl h
  | cons e L' ih =>
    intro acc _ hL
    obtain ⟨parts, v⟩ := e
    obtain ⟨hne, hplain⟩ := hL (parts, v) (by simp)
    obtain ⟨c₁, hc₁⟩ := insJ_plain_ok parts (childDict acc p) v hne hplain
    cases parts with
    | nil => exact absurd rfl hne
    | cons q qs =>
      have hstep : insJ (JVal.jdict acc) (p :: q :: qs) v =
          .ok (JVal.jdict (jSet acc p (JVal.jdict c₁))) := by
        rw [insJ_descend hp, hc₁]
      simp only [List.map_cons]
      rw [nestGoParts_cons_ok hstep, nestGoParts_cons_ok hc₁]
      by_cases hL'e : L' = []
      · subst hL'e
        rfl
      · have ihh := ih (jSet acc p (JVal.jdict c₁)) hL'e
          (fun x hx => hL x (by simp [hx]))
        rw [ihh, childDict_jSet_same, jSet_jSet_same]

theorem flatPartsF_prepend {α : Type} (q : Str) (d : List (Str × JVal α)) :
    ∀ P : List Str,
      flatPartsF d (q :: P) = (flatPartsF d P).map (fun e => (q :: e.1, e.2)) := by
  induction d using entriesRec with
  | hnil =>
    intro P
    rfl
  | hcons k v rest ihrest ihsub =>
    intro P
    cases v with
    | jdict sub =>
      simp only [flatPartsF, flatPartsV, List.cons_append]
      rw [ihsub sub rfl (P ++ [k]), ihrest P, List.map_append]
    | leaf a =>
      simp only [flatPartsF, flatPartsV, List.cons_append, List.map_append,
        List.map_cons, List.map_nil]
      rw [ihrest P]
    | jlist l =>
      simp only [flatPartsF, flatPartsV, List.cons_append, List.map_append,
        List.map_cons, List.map_nil]
      rw [ihrest P]

theorem goodEntries_cons {α : Type} {k : Str} {v : JVal α}
    {rest : List (Str × JVal α)} (h : goodEntries ((k, v) :: rest) = true) :
    goodKey k = true ∧ goodVal v = true ∧ goodEntries rest = true := by
  simp only [goodEntries, Bool.and_eq_true] at h
  exact ⟨h.1.1, h.1.2, h.2⟩

theorem goodVal_dict {α : Type} {sub : List (Str × JVal α)}
    (h : goodVal (JVal.jdict sub) = true) :
    sub ≠ [] ∧ distinctKeys (sub.map Prod.fst) = true ∧ goodEntries sub = true := by
  simp only [goodVal, Bool.and_eq_true] at h
  refine ⟨?_, h.1.2, h.2⟩
  have := h.1.1
  simp at this
  exact this

theorem goodKey_plain {k : Str} (h : goodKey k = true) :
    matchIndexPart k = none := by
  simp only [goodKey, Bool.and_eq_true] at h
  have := h.2
  simpa [Option.isNone_iff_eq_none] using this

theorem flatPartsF_good {α : Type} (d : List (Str × JVal α)) :
    goodEntries d = true →
    ∀ e ∈ flatPartsF d [], e.1 ≠ [] ∧ ∀ p ∈ e.1, goodKey p = true := by
  induction d using entriesRec with
  | hnil =>
    intro _ e he
    simp [flatPartsF] at he
  | hcons k v rest ihrest ihsub =>
    intro hg e he
    obtain ⟨hk, hv, hrest⟩ := goodEntries_cons hg
    simp only [flatPartsF, List.nil_append, List.mem_append] at he
    rcases he with he | he
    · cases v with
      | jdict sub =>
        simp only [flatPartsV] at he
        rw [flatPartsF_prepend k sub] at he
        simp only [List.mem_map] at he
        obtain ⟨e', he', rfl⟩ := he
        obtain ⟨_, _, hgsub⟩ := goodVal_dict hv
        obtain ⟨he'ne, he'good⟩ := ihsub sub rfl hgsub e' he'
        refine ⟨by simp, ?_⟩
        intro p hp
        simp only [List.mem_cons] at hp
        rcases hp with rfl | hp
        · exact hk
        · exact he'good p hp
      | leaf a =>
        simp only [flatPartsV, List.nil_append, List.mem_singleton] at he
        subst he
        refine ⟨by simp, ?_⟩
        intro p hp
        simp only [List.mem_singleton] at hp
        subst hp
        exact hk
      | jlist l =>
        simp only [flatPartsV, List.nil_append, List.mem_singleton] at he
        subst he
        refine ⟨by simp, ?_⟩
        intro p hp
        simp only [List.mem_singleton] at hp
        subst hp
        exact hk
    · exact ihrest hrest e he

theorem flatPartsF_ne_nil {α : Type} (d : List (Str × JVal α)) :
    goodEntries d = true → d ≠ [] → flatPartsF d [] ≠ [] := by
  induction d using entriesRec with
  | hnil =>
    intro _ h
    exact absurd rfl h
  | hcons k v rest ihrest ihsub =>
    intro hg _
    obtain ⟨hk, hv, hrest⟩ := goodEntries_cons hg
    cases v with
    | jdict sub =>
      obtain ⟨hsubne, _, hgsub⟩ := goodVal_dict hv
      have hbase : flatPartsF sub [] ≠ [] := ihsub sub rfl hgsub hsubne
      have hleft : flatPartsF sub [k] ≠ [] := by
        rw [flatPartsF_prepend k sub]
        simpa using hbase
      simp only [flatPartsF, flatPartsV, List.nil_append]
      exact fun hcon => hleft (List.append_eq_nil.mp hcon).1
    | leaf a =>
      simp [flatPartsF, flatPartsV]
    | jlist l =>
      simp [flatPartsF, flatPartsV]

theorem distinctKeys_cons {k : Str} {l : List Str}
    (h : distinctKeys (k :: l) = true) : ¬ k ∈ l ∧ distinctKeys l = true := by
  simp only [distinctKeys, Bool.and_eq_true] at h
  refine ⟨?_, h.2⟩
  have := h.1
  simpa using this

theorem flatPartsF_paths_nodup {α : Type} (d : List (Str × JVal α)) :
    goodEntries d = true → distinctKeys (d.map Prod.fst) = true →
    ((flatPartsF d []).map Prod.fst).Nodup ∧
    ∀ q ∈ (flatPartsF d []).map Prod.fst,
      ∃ k, q.head? = some k ∧ k ∈ d.map Prod.fst := by
  induction d using entriesRec with
  | hnil =>
    intro _ _
    simp [flatPartsF]
  | hcons k v rest ihrest ihsub =>
    intro hg hd
    obtain ⟨hk, hv, hrest⟩ := goodEntries_cons hg
    obtain ⟨hknotin, hdrest⟩ := distinctKeys_cons (by simpa using hd)
    obtain ⟨hnodup2, hheads2⟩ := ihrest hrest hdrest
    have hblock1 : ((flatPartsV v [k]).map Prod.fst).Nodup ∧
        ∀ q ∈ (flatPartsV v [k]).map Prod.fst, q.head? = some k := by
      cases v with
      | jdict sub =>
        obtain ⟨hsubne, hdsub, hgsub⟩ := goodVal_dict hv
        obtain ⟨hnodup1, _⟩ := ihsub sub rfl hgsub hdsub
        simp only [flatPartsV]
        rw [flatPartsF_prepend k sub]
        constructor
        · rw [List.map_map]
          have : (Prod.fst ∘ fun e : List Str × JVal α => (k :: e.1, e.2)) =
              (fun q => k :: q) ∘ Prod.fst := rfl
          rw [this, ← List.map_map]
          exact hnodup1.map (fun a b hab => by simpa using hab)
        · intro q hq
          simp only [List.map_map, List.mem_map] at hq
          obtain ⟨e', _, rfl⟩ := hq
          rfl
      | leaf a =>
        constructor
        · simp [flatPartsV]
        · intro q hq
          simp only [flatPartsV, List.map_cons, List.map_nil,
            List.mem_singleton] at hq
          subst hq
          rfl
      | jlist l =>
        constructor
        · simp [flatPartsV]
        · intro q hq
          simp only [flatPartsV, List.map_cons, List.map_nil,
            List.mem_singleton] at hq
          subst hq
          rfl
    obtain ⟨hnodup1, hheads1⟩ := hblock1
    have hmapfst : (flatPartsF ((k, v) :: rest) []).map Prod.fst =
        (flatPartsV v [k]).map Prod.fst ++ (flatPartsF rest []).map Prod.fst := by
      simp [flatPartsF, List.map_append]
    constructor
    · rw [hmapfst]
      refine List.Nodup.append hnodup1 hnodup2 ?_
      intro q hq1 hq2
      obtain ⟨k', hk'head, hk'mem⟩ := hheads2 q hq2
      have := hheads1 q hq1
      rw [this] at hk'head
      obtain rfl : k = k' := by injection hk'head
      exact hknotin hk'mem
    · intro q hq
      rw [hmapfst] at hq
      rcases List.mem_append.mp hq with hq | hq
      · refine ⟨k, hheads1 q hq, ?_⟩
        rw [List.map_cons]
        exact List.mem_cons_self _ _
      · obtain ⟨k', hh, hm⟩ := hheads2 q hq
        refine ⟨k', hh, ?_⟩
        rw [List.map_cons]
        exact List.mem_cons_of_mem _ hm

theorem nestGoParts_flatParts {α : Type} (d : List (Str × JVal α)) :
    ∀ acc : List (Str × JVal α),
      goodEntries d = true → distinctKeys (d.map Prod.fst) = true →
      (∀ k ∈ d.map Prod.fst, jGet acc k = none) →
      nestGoParts (flatPartsF d []) acc = acc ++ d := by
  induction d using entriesRec with
  | hnil =>
    intro acc _ _ _
    simp [flatPartsF, nestGoParts]
  | hcons k v rest ihrest ihsub =>
    intro acc hg hd hacc
    obtain ⟨hk, hv, hrest⟩ := goodEntries_cons hg
    obtain ⟨hknotin, hdrest⟩ := distinctKeys_cons (by simpa using hd)
    have hacck : jGet acc k = none :=
      hacc k (by rw [List.map_cons]; exact List.mem_cons_self _ _)
    have hkplain := goodKey_plain hk
    cases v with
    | jdict sub =>
      obtain ⟨hsubne, hdsub, hgsub⟩ := goodVal_dict hv
      have hshape : flatPartsF ((k, JVal.jdict sub) :: rest) [] =
          (flatPartsF sub []).map (fun e => (k :: e.1, e.2)) ++ flatPartsF rest [] := by
        simp only [flatPartsF, flatPartsV, List.nil_append]
        rw [flatPartsF_prepend k sub]
      rw [hshape]
      have hplainA : ∀ e ∈ (flatPartsF sub []).map (fun e => (k :: e.1, e.2)),
          e.1 ≠ [] ∧ ∀ q ∈ e.1, matchIndexPart q = none := by
        intro e he
        simp only [List.mem_map] at he
        obtain ⟨e', he', rfl⟩ := he
        obtain ⟨_, hgood⟩ := flatPartsF_good sub hgsub e' he'
        refine ⟨by simp, ?_⟩
        intro q hq
        rcases List.mem_cons.mp hq with rfl | hq
        · exact hkplain
        · exact goodKey_plain (hgood q hq)
      have hplainL : ∀ e ∈ flatPartsF sub [],
          e.1 ≠ [] ∧ ∀ q ∈ e.1, matchIndexPart q = none := by
        intro e he
        obtain ⟨hne, hgood⟩ := flatPartsF_good sub hgsub e he
        exact ⟨hne, fun q hq => goodKey_plain (hgood q hq)⟩
      rw [nestGoParts_append_plain _ _ _ hplainA,
        nestGoParts_descend hkplain _ _ (flatPartsF_ne_nil sub hgsub hsubne) hplainL,
        childDict_of_none hacck,
        ihsub sub rfl [] hgsub hdsub (fun k' _ => rfl), List.nil_append,
        jSet_append_of_none _ hacck]
      have hdisj : ∀ k' ∈ rest.map Prod.fst,
          jGet (acc ++ [(k, JVal.jdict sub)]) k' = none := by
        intro k' hk'
        have hne : k' ≠ k := fun he => hknotin (he ▸ hk')
        rw [jGet_append,
          hacc k' (by rw [List.map_cons]; exact List.mem_cons_of_mem _ hk'),
          jGet_single_other _ hne]
        rfl
      rw [ihrest _ hrest hdrest hdisj, List.append_assoc, List.singleton_append]
    | leaf a =>
      have hshape : flatPartsF ((k, JVal.leaf a) :: rest) [] =
          ([k], JVal.leaf a) :: flatPartsF rest [] := by
        simp [flatPartsF, flatPartsV]
      rw [hshape,
        nestGoParts_cons_ok (insJ_single hkplain acc (JVal.leaf a)),
        jSet_append_of_none _ hacck]
      have hdisj : ∀ k' ∈ rest.map Prod.fst,
          jGet (acc ++ [(k, JVal.leaf a)]) k' = none := by
        intro k' hk'
        have hne : k' ≠ k := fun he => hknotin (he ▸ hk')
        rw [jGet_append,
          hacc k' (by rw [List.map_cons]; exact List.mem_cons_of_mem _ hk'),
          jGet_single_other _ hne]
        rfl
      rw [ihrest _ hrest hdrest hdisj, List.append_assoc, List.singleton_append]
    | jlist l =>
      have hshape : flatPartsF ((k, JVal.jlist l) :: rest) [] =
          ([k], JVal.jlist l) :: flatPartsF rest [] := by
        simp [flatPartsF, flatPartsV]
      rw [hshape,
        nestGoParts_cons_ok (insJ_single hkplain acc (JVal.jlist l)),
        jSet_append_of_none _ hacck]
      have hdisj : ∀ k' ∈ rest.map Prod.fst,
          jGet (acc ++ [(k, JVal.jlist l)]) k' = none := by
        intro k' hk'
        have hne : k' ≠ k := fun he => hknotin (he ▸ hk')
        rw [jGet_append,
          hacc k' (by rw [List.map_cons]; exact List.mem_cons_of_mem _ hk'),
          jGet_single_other _ hne]
        rfl
      rw [ihrest _ hrest hdrest hdisj, List.append_assoc, List.singleton_append]

theorem goodKey_ne_nil {k : Str} (h : goodKey k = true) : k ≠ [] := by
  simp only [goodKey, Bool.and_eq_true] at h
  have := h.1.1
  simpa using this

theorem goodKey_no_colon {k : Str} (h : goodKey k = true) : ':' ∉ k := by
  simp only [goodKey, Bool.and_eq_true] at h
  have := h.1.2
  simpa using this

theorem jGet_eq_none_of_not_mem {α : Type} {d : List (Str × α)} {k : Str}
    (h : ¬ k ∈ d.map Prod.fst) : jGet d k = none := by
  induction d with
  | nil => rfl
  | cons kv rest ih =>
    obtain ⟨k0, v0⟩ := kv
    have h1 : k0 ≠ k := fun he => by
      rw [List.map_cons, he] at h
      exact h (List.mem_cons_self _ _)
    have hbeq : (k0 == k) = false := by
      rw [beq_eq_false_iff_ne]
      exact h1
    have h2 : ¬ k ∈ rest.map Prod.fst := fun hm => by
      rw [List.map_cons] at h
      exact h (List.mem_cons_of_mem _ hm)
    have := ih h2
    simp only [jGet, List.find?_cons, hbeq] at this ⊢
    exact this

theorem foldl_jSet_append {α : Type} :
    ∀ (L items : List (Str × JVal α)),
      (L.map Prod.fst).Nodup →
      (∀ k ∈ L.map Prod.fst, jGet items k = none) →
      L.foldl (fun a kv => jSet a kv.1 kv.2) items = items ++ L := by
  intro L
  induction L with
  | nil =>
    intro items _ _
    simp
  | cons e L' ih =>
    intro items hnodup hdisj
    obtain ⟨k, v⟩ := e
    rw [List.map_cons] at hnodup hdisj
    obtain ⟨hknotin, hnodup'⟩ := List.nodup_cons.mp hnodup
    simp only [List.foldl_cons]
    rw [jSet_append_of_none v (hdisj k (List.mem_cons_self _ _))]
    have hdisj' : ∀ k' ∈ L'.map Prod.fst, jGet (items ++ [(k, v)]) k' = none := by
      intro k' hk'
      have hne : k' ≠ k := fun he => hknotin (he ▸ hk')
      rw [jGet_append, hdisj k' (List.mem_cons_of_mem _ hk'),
        jGet_single_other _ hne]
      rfl
    rw [ih (items ++ [(k, v)]) hnodup' hdisj', List.append_assoc,
      List.singleton_append]

theorem flatS_eq_flatParts {α : Type} (d : List (Str × JVal α)) :
    ∀ P : List Str, goodEntries d = true → (∀ p ∈ P, p ≠ []) →
      flatS d (joinChar ':' P) =
        (flatPartsF d P).map (fun e => (joinChar ':' e.1, e.2)) := by
  induction d using entriesRec with
  | hnil =>
    intro P _ _
    rfl
  | hcons k v rest ihrest ihsub =>
    intro P hg hP
    obtain ⟨hk, hv, hrest⟩ := goodEntries_cons hg
    have hknn : k ≠ [] := goodKey_ne_nil hk
    have hnk : nkey (joinChar ':' P) k = joinChar ':' (P ++ [k]) :=
      (joinChar_append_single P k hP).symm
    have hPk : ∀ p ∈ P ++ [k], p ≠ [] := by
      intro p hp
      rcases List.mem_append.mp hp with hp | hp
      · exact hP p hp
      · rw [List.mem_singleton.mp hp]
        exact hknn
    cases v with
    | jdict sub =>
      obtain ⟨_, _, hgsub⟩ := goodVal_dict hv
      simp only [flatS, flatSV, flatPartsF, flatPartsV]
      rw [hnk, ihsub sub rfl (P ++ [k]) hgsub hPk, ihrest P hrest hP,
        List.map_append]
    | leaf a =>
      simp only [flatS, flatSV, flatPartsF, flatPartsV, List.map_append,
        List.map_cons, List.map_nil]
      rw [hnk, ihrest P hrest hP]
    | jlist l =>
      simp only [flatS, flatSV, flatPartsF, flatPartsV, List.map_append,
        List.map_cons, List.map_nil]
      rw [hnk, ihrest P hrest hP]

theorem flat_go_eq_append {α : Type} (d : List (Str × JVal α)) :
    ∀ (parent : Str) (items : List (Str × JVal α)),
      ((flatS d parent).map Prod.fst).Nodup →
      (∀ k ∈ (flatS d parent).map Prod.fst, jGet items k = none) →
      flat_go d parent items = items ++ flatS d parent := by
  induction d using entriesRec with
  | hnil =>
    intro parent items _ _
    simp [flat_go, flatS]
  | hcons k v rest ihrest ihsub =>
    intro parent items hnodup hdisj
    have hshape : flatS ((k, v) :: rest) parent =
        flatSV v (nkey parent k) ++ flatS rest parent := rfl
    rw [hshape, List.map_append] at hnodup hdisj
    have hnodup1 : ((flatSV v (nkey parent k)).map Prod.fst).Nodup :=
      hnodup.of_append_left
    have hnodup2 : ((flatS rest parent).map Prod.fst).Nodup :=
      hnodup.of_append_right
    have hdisj12 : ∀ q ∈ (flatSV v (nkey parent k)).map Prod.fst,
        ¬ q ∈ (flatS rest parent).map Prod.fst :=
      fun q hq1 hq2 => (List.disjoint_of_nodup_append hnodup) hq1 hq2
    have hd1 : ∀ q ∈ (flatSV v (nkey parent k)).map Prod.fst,
        jGet items q = none :=
      fun q hq => hdisj q (List.mem_append_left _ hq)
    have hd2 : ∀ q ∈ (flatS rest parent).map Prod.fst, jGet items q = none :=
      fun q hq => hdisj q (List.mem_append_right _ hq)
    have hunfold : flat_go ((k, v) :: rest) parent items =
        flat_go rest parent (flatV v (nkey parent k) items) := rfl
    rw [hunfold, hshape]
    cases v with
    | jdict sub =>
      have hsubflat : flat_go sub (nkey parent k) [] = flatS sub (nkey parent k) := by
        rw [ihsub sub rfl (nkey parent k) [] hnodup1 (fun q _ => rfl)]
        rfl
      have hfv : flatV (JVal.jdict sub) (nkey parent k) items =
          items ++ flatS sub (nkey parent k) := by
        simp only [flatV]
        rw [hsubflat]
        exact foldl_jSet_append _ items hnodup1 hd1
      rw [hfv]
      have hdisj' : ∀ q ∈ (flatS rest parent).map Prod.fst,
          jGet (items ++ flatS sub (nkey parent k)) q = none := by
        intro q hq
        have hnm : ¬ q ∈ (flatS sub (nkey parent k)).map Prod.fst :=
          fun hm => hdisj12 q hm hq
        rw [jGet_append, hd2 q hq, jGet_eq_none_of_not_mem hnm]
        rfl
      rw [ihrest parent _ hnodup2 hdisj', List.append_assoc]
      rfl
    | leaf a =>
      have hfv : flatV (JVal.leaf a) (nkey parent k) items =
          items ++ [(nkey parent k, JVal.leaf a)] := by
        simp only [flatV]
        exact jSet_append_of_none _ (hd1 (nkey parent k) (by simp [flatSV]))
      rw [hfv]
      have hdisj' : ∀ q ∈ (flatS rest parent).map Prod.fst,
          jGet (items ++ [(nkey parent k, JVal.leaf a)]) q = none := by
        intro q hq
        have hne : q ≠ nkey parent k := fun he =>
          hdisj12 q (by rw [he]; simp [flatSV]) (he ▸ hq)
        rw [jGet_append, hd2 q hq, jGet_single_other _ hne]
        rfl
      rw [ihrest parent _ hnodup2 hdisj', List.append_assoc]
      rfl
    | jlist l =>
      have hfv : flatV (JVal.jlist l) (nkey parent k) items =
          items ++ [(nkey parent k, JVal.jlist l)] := by
        simp only [flatV]
        exact jSet_append_of_none _ (hd1 (nkey parent k) (by simp [flatSV]))
      rw [hfv]
      have hdisj' : ∀ q ∈ (flatS rest parent).map Prod.fst,
          jGet (items ++ [(nkey parent k, JVal.jlist l)]) q = none := by
        intro q hq
        have hne : q ≠ nkey parent k := fun he =>
          hdisj12 q (by rw [he]; simp [flatSV]) (he ▸ hq)
        rw [jGet_append, hd2 q hq, jGet_single_other _ hne]
        rfl
      rw [ihrest parent _ hnodup2 hdisj', List.append_assoc]
      rfl

theorem flatten_split_eq_parts {α : Type} {t : List (Str × JVal α)}
    (hge : goodEntries t = true) (hdk : distinctKeys (t.map Prod.fst) = true) :
    (flatten_dict t []).map (fun kv => (pySplitChar ':' kv.1, kv.2)) =
      flatPartsF t [] := by
  have hjoin : flatS t [] =
      (flatPartsF t []).map (fun e => (joinChar ':' e.1, e.2)) := by
    have h := flatS_eq_flatParts t [] hge (by intro p hp; simp at hp)
    exact h
  have hgoodpaths : ∀ e ∈ flatPartsF t [],
      e.1 ≠ [] ∧ ∀ p ∈ e.1, p ≠ [] ∧ ':' ∉ p := by
    intro e he
    obtain ⟨hne, hg⟩ := flatPartsF_good t hge e he
    exact ⟨hne, fun p hp =>
      ⟨goodKey_ne_nil (hg p hp), goodKey_no_colon (hg p hp)⟩⟩
  have hnodup : ((flatS t []).map Prod.fst).Nodup := by
    rw [hjoin, List.map_map]
    have hpaths := (flatPartsF_paths_nodup t hge hdk).1
    have hswap : (Prod.fst ∘ fun e : List Str × JVal α =>
        (joinChar ':' e.1, e.2)) = (fun q => joinChar ':' q) ∘ Prod.fst := rfl
    rw [hswap, ← List.map_map]
    refine List.Nodup.map_on ?_ hpaths
    intro x hx y hy hxy
    obtain ⟨ex, hex, rfl⟩ := List.mem_map.mp hx
    obtain ⟨ey, hey, rfl⟩ := List.mem_map.mp hy
    obtain ⟨hxne, hxg⟩ := hgoodpaths ex hex
    obtain ⟨hyne, hyg⟩ := hgoodpaths ey hey
    have hsp := congrArg (pySplitChar ':') hxy
    rwa [pySplitChar_joinChar hxne hxg, pySplitChar_joinChar hyne hyg] at hsp
  have hflat : flatten_dict t [] = flatS t [] := by
    have h := flat_go_eq_append t [] [] hnodup (fun q _ => rfl)
    simp only [flatten_dict]
    rw [h, List.nil_append]
  rw [hflat, hjoin, List.map_map]
  have hid : ∀ e ∈ flatPartsF t [],
      ((fun kv : Str × JVal α => (pySplitChar ':' kv.1, kv.2)) ∘
        (fun e : List Str × JVal α => (joinChar ':' e.1, e.2))) e = e := by
    intro e he
    obtain ⟨hne, hg⟩ := hgoodpaths e he
    simp only [Function.comp]
    rw [pySplitChar_joinChar hne hg]
  rw [List.map_congr_left hid]
  simp

/-- C5: counterexample to the claimed round trip `nest_parameters
(flatten_dict tree)` = tree for every gap-free tree of maps.  The
single-key tree `{"a1": 0}` has no arrays and hence no array-index gaps,
yet its flat form `{"a1": 0}` is reinterpreted by `nest_parameters`
(regex `^([a-zA-Z_]+)(\d+)$`) as index 1 of an array `a`, giving
`{"a": [{}, 0]}`, not the original tree. -/
theorem claim_C5_counterexample :
    flatten_dict [([ 'a', '1' ], JVal.leaf (0 : Int))] [] =
        [([ 'a', '1' ], JVal.leaf (0 : Int))] ∧
    nest_parameters (flatten_dict [([ 'a', '1' ], JVal.leaf (0 : Int))] []) =
        [([ 'a' ], JVal.jlist [JVal.jdict [], JVal.leaf (0 : Int)])] ∧
    nest_parameters (flatten_dict [([ 'a', '1' ], JVal.leaf (0 : Int))] []) ≠
        [([ 'a', '1' ], JVal.leaf (0 : Int))] := by
  refine ⟨rfl, rfl, ?_⟩
  intro hcon
  rw [show nest_parameters (flatten_dict
        [([ 'a', '1' ], JVal.leaf (0 : Int))] []) =
      [([ 'a' ], JVal.jlist [JVal.jdict [], JVal.leaf (0 : Int)])] from rfl]
    at hcon
  have h2 := congrArg (List.map Prod.fst) hcon
  simp only [List.map_cons, List.map_nil] at h2
  exact absurd h2 (by decide)

/-- C5 (amended): the round trip `nest_parameters (flatten_dict tree)` =
tree holds for every tree of maps whose dict keys are all nonempty,
contain no `:` separator, are distinct within each dict, do not match the
letters-then-digits index pattern, and whose sub-dicts are nonempty
(`goodDict`).  Keys outside these conditions are merged, re-split, or
reinterpreted as array indices by the pair of functions. -/
theorem claim_C5_amended {α : Type} (t : List (Str × JVal α))
    (h : goodDict t = true) : nest_parameters (flatten_dict t []) = t := by
  simp only [goodDict, Bool.and_eq_true] at h
  simp only [nest_parameters]
  rw [flatten_split_eq_parts h.2 h.1]
  rw [nestGoParts_flatParts t [] h.2 h.1 (fun k _ => rfl)]
  exact List.nil_append t

/-- C5 witness: the amended round trip at the concrete good tree
`{"a": 3, "b": {"c": 4}}`. -/
theorem claim_C5_witness :
    goodDict [([ 'a' ], JVal.leaf (3 : Int)),
        ([ 'b' ], JVal.jdict [([ 'c' ], JVal.leaf (4 : Int))])] = true ∧
    nest_parameters (flatten_dict [([ 'a' ], JVal.leaf (3 : Int)),
        ([ 'b' ], JVal.jdict [([ 'c' ], JVal.leaf (4 : Int))])] []) =
      [([ 'a' ], JVal.leaf (3 : Int)),
       ([ 'b' ], JVal.jdict [([ 'c' ], JVal.leaf (4 : Int))])] :=
  ⟨rfl, claim_C5_amended _ rfl⟩
